import Mathlib

/-!
Verification of the queue-manager's client-side diff/patch engine and the
worker's API routing, as implemented in `src/unnamed/part_000` (the React
admin console) and `src/worker/src/index.ts` (the Cloudflare worker proxy).

JSON values are modelled as a tagged union.  JavaScript objects preserve key
insertion order (observable through `Object.keys` and `JSON.stringify`), so
object fields are kept as an ordered association list.  JSON numbers in this
development are integers (`Int`); none of the verified properties depend on
floating-point behaviour.

JavaScript `===` between two values: equality on primitives, reference
equality on objects/arrays.  In every call path of the code under
verification, the two sides handed to `deepDiff` / `collectDiffLines` are
freshly built, reference-distinct object graphs (`stripReadOnly` rebuilds
both sides, `JSON.parse` builds a fresh tree), so for structured values the
`===` test is always false; `primEq` below embeds exactly that.  (The result
of `deepDiff` is in any case independent of aliasing: structurally equal
arrays compare equal through `JSON.stringify`, and structurally equal
objects recurse to equal primitives.)
-/

inductive JVal where
  | null : JVal
  | bool (b : Bool) : JVal
  | num (n : Int) : JVal
  | str (s : String) : JVal
  | arr (xs : List JVal) : JVal
  | obj (fs : List (String × JVal)) : JVal

namespace QueueManager

open JVal

mutual

/-- Structural equality of JSON values (arrays element-wise in order, object
field lists in insertion order). -/
def jbeq : JVal → JVal → Bool
  | JVal.null, JVal.null => true
  | JVal.bool a, JVal.bool b => a == b
  | JVal.num a, JVal.num b => a == b
  | JVal.str a, JVal.str b => a == b
  | JVal.arr xs, JVal.arr ys => jbeqArr xs ys
  | JVal.obj fs, JVal.obj gs => jbeqObj fs gs
  | _, _ => false

def jbeqArr : List JVal → List JVal → Bool
  | [], [] => true
  | x :: xs, y :: ys => jbeq x y && jbeqArr xs ys
  | _, _ => false

def jbeqObj : List (String × JVal) → List (String × JVal) → Bool
  | [], [] => true
  | (k, v) :: fs, (l, w) :: gs => k == l && jbeq v w && jbeqObj fs gs
  | _, _ => false

end

/-- First-match lookup in an ordered field list, i.e. JavaScript property
access `o[k]` (an object literal cannot carry duplicate keys; on lists that
do, the first occurrence wins, consistently everywhere below). -/
def lookupJ (k : String) : List (String × JVal) → Option JVal
  | [] => none
  | (k2, v) :: fs => if k2 = k then some v else lookupJ k fs

/-- The keys of a field list, in order (JavaScript `Object.keys`). -/
def keysOf (fs : List (String × JVal)) : List String := fs.map Prod.fst

/-- Deduplication keeping the first occurrence: the iteration order of a
JavaScript `Set` built from a list. -/
def dedupFirst : List String → List String
  | [] => []
  | k :: ks => k :: dedupFirst (ks.filter (fun x => x ≠ k))
termination_by l => l.length
decreasing_by
  simp only [List.length_cons]
  exact Nat.lt_succ_of_le (List.length_filter_le _ _)

/-- JavaScript `===` restricted to the situations the code can reach:
equality of primitive values; false whenever either side is a structured
value (the two sides are always reference-distinct, see the header note). -/
def primEq : JVal → JVal → Bool
  | JVal.null, JVal.null => true
  | JVal.bool a, JVal.bool b => a == b
  | JVal.num a, JVal.num b => a == b
  | JVal.str a, JVal.str b => a == b
  | _, _ => false

/-! ### JSON.stringify

`deepDiff` and `collectDiffLines` compare arrays by
`JSON.stringify(x) === JSON.stringify(y)`; `fmt` (the value formatter of the
diff renderer) is `JSON.stringify` as well.  The serializer is embedded at
the level of character lists, following ECMAScript `JSON.stringify`:
strings are quoted with `"`, `\` and control characters escaped (the
two-character escapes `\b \t \n \f \r` and `\u00XX` for the remaining
control characters, lowercase hex); arrays and objects are comma-joined
with object fields in insertion order. -/

def digitChar : Nat → Char
  | 0 => '0' | 1 => '1' | 2 => '2' | 3 => '3' | 4 => '4'
  | 5 => '5' | 6 => '6' | 7 => '7' | 8 => '8' | 9 => '9'
  | _ => '*'

/-- Lowercase hexadecimal digit (only values below 16 arise). -/
def hexDigit : Nat → Char
  | 0 => '0' | 1 => '1' | 2 => '2' | 3 => '3' | 4 => '4'
  | 5 => '5' | 6 => '6' | 7 => '7' | 8 => '8' | 9 => '9'
  | 10 => 'a' | 11 => 'b' | 12 => 'c' | 13 => 'd' | 14 => 'e' | 15 => 'f'
  | _ => '*'

/-- Decimal digits of a natural number, most significant first. -/
def natChars (n : Nat) : List Char :=
  if _h : n < 10 then [digitChar n]
  else natChars (n / 10) ++ [digitChar (n % 10)]
termination_by n
decreasing_by
  exact Nat.div_lt_self (by omega) (by omega)

/-- Decimal representation of an integer (JavaScript number-to-string for
integral values). -/
def intChars (i : Int) : List Char :=
  if i < 0 then '-' :: natChars (-i).toNat else natChars i.toNat

/-- ECMAScript `QuoteJSONString` escaping of a single character. -/
def escapeChar (c : Char) : List Char :=
  if c = '"' then ['\\', '"']
  else if c = '\\' then ['\\', '\\']
  else if c.toNat = 8 then ['\\', 'b']
  else if c.toNat = 9 then ['\\', 't']
  else if c.toNat = 10 then ['\\', 'n']
  else if c.toNat = 12 then ['\\', 'f']
  else if c.toNat = 13 then ['\\', 'r']
  else if c.toNat < 32 then
    ['\\', 'u', '0', '0', hexDigit (c.toNat / 16), hexDigit (c.toNat % 16)]
  else [c]

def escBody : List Char → List Char
  | [] => []
  | c :: cs => escapeChar c ++ escBody cs

/-- Serialized form of a JSON string: quote, escaped body, quote. -/
def encodeStr (s : String) : List Char :=
  '"' :: (escBody s.data ++ ['"'])

mutual

/-- `JSON.stringify`, as a list of characters. -/
def stringifyChars : JVal → List Char
  | JVal.null => ['n', 'u', 'l', 'l']
  | JVal.bool true => ['t', 'r', 'u', 'e']
  | JVal.bool false => ['f', 'a', 'l', 's', 'e']
  | JVal.num i => intChars i
  | JVal.str s => encodeStr s
  | JVal.arr xs => '[' :: (arrChars xs ++ [']'])
  | JVal.obj fs => '{' :: (objChars fs ++ ['}'])

/-- Comma-joined serialized array elements. -/
def arrChars : List JVal → List Char
  | [] => []
  | [x] => stringifyChars x
  | x :: y :: xs => stringifyChars x ++ ',' :: arrChars (y :: xs)

/-- Comma-joined serialized object fields, `"key":value`, insertion order. -/
def objChars : List (String × JVal) → List Char
  | [] => []
  | [(k, v)] => encodeStr k ++ ':' :: stringifyChars v
  | (k, v) :: f :: fs => encodeStr k ++ ':' :: stringifyChars v ++ ',' :: objChars (f :: fs)

end

/-- `JSON.stringify` as a `String`. -/
def stringify (v : JVal) : String := ⟨stringifyChars v⟩

/-- Size of a value found by `lookupJ` is below the size of the field list;
used for termination of the lookup-driven recursions below. -/
theorem lookupJ_sizeOf {k : String} : ∀ {fs : List (String × JVal)} {v : JVal},
    lookupJ k fs = some v → sizeOf v < sizeOf fs
  | [], _, h => by simp [lookupJ] at h
  | (k2, w) :: fs, v, h => by
    by_cases hk : k2 = k
    · simp [lookupJ, hk] at h
      subst h
      simp
      omega
    · simp [lookupJ, hk] at h
      have := lookupJ_sizeOf h
      simp
      omega

/-! ### deepDiff (src/unnamed/part_000 lines 131-160)

```js
function deepDiff(original, edited) {
  if (original === edited) return undefined;
  // [type tests] if either side is null, a primitive, or an array:
  //   both arrays  -> undefined when JSON.stringify agrees, else edited
  //   otherwise    -> edited  (atomic replace)
  // both non-array objects:
  //   keys = new Set([...Object.keys(original), ...Object.keys(edited)])
  //   for k of keys:
  //     if (!(k in edited)) continue;          // no deletions
  //     d = deepDiff(original[k], edited[k]);  // original[k] may be undefined
  //     if (d !== undefined) out[k] = d;
  //   return Object.keys(out).length ? out : undefined;
}
```
When `k` is absent from `original`, `deepDiff(undefined, edited[k])`
returns `edited[k]`: `undefined === edited[k]` is false, `undefined == null`
is true, so the atomic-replace branch returns the edited value.  That case
is inlined below. -/

/-- Key set of the union in JavaScript `Set` iteration order: keys of the
original, then keys of the edited object not already seen. -/
def unionKeys (os es : List (String × JVal)) : List String :=
  dedupFirst (keysOf os ++ keysOf es)

mutual

/-- The deep diff of lines 131-160: `none` is JavaScript `undefined`. -/
def deepDiff (o e : JVal) : Option JVal :=
  if primEq o e then none
  else
    match o, e with
    | JVal.obj os, JVal.obj es =>
      match diffFields os es (unionKeys os es) with
      | [] => none
      | f :: fs => some (JVal.obj (f :: fs))
    | JVal.arr xs, JVal.arr ys =>
      if stringify (JVal.arr xs) == stringify (JVal.arr ys) then none
      else some (JVal.arr ys)
    | _, _ => some e
termination_by (sizeOf o + sizeOf e, 0)
decreasing_by
  apply Prod.Lex.left
  simp
  omega

/-- The loop body over the union key set: skip keys missing from the edited
side, take the edited value for keys missing from the original, recurse
otherwise and keep non-`undefined` results. -/
def diffFields (os es : List (String × JVal)) : List String → List (String × JVal)
  | [] => []
  | k :: ks =>
    (match he : lookupJ k es with
     | none => []
     | some ev =>
       match ho : lookupJ k os with
       | none => [(k, ev)]
       | some ov =>
         match deepDiff ov ev with
         | none => []
         | some d => [(k, d)]) ++ diffFields os es ks
termination_by ks => (sizeOf os + sizeOf es, ks.length)
decreasing_by
  · apply Prod.Lex.left
    have h1 := lookupJ_sizeOf he
    have h2 := lookupJ_sizeOf ho
    omega
  · apply Prod.Lex.right
    simp

end

/-! ### stripReadOnly (src/unnamed/part_000 lines 163-184) -/

/-- The deny set of read-only keys. -/
def denyKeys : List String :=
  ["queue_id", "id", "created_at", "updated_at", "last_modified_time",
   "total_records", "next_page_token"]

mutual

/-- Recursive removal of the denied keys: primitives (and `null`) pass
through, arrays map element-wise, objects drop denied keys and recurse into
the kept values. -/
def stripReadOnly : JVal → JVal
  | JVal.arr xs => JVal.arr (stripArr xs)
  | JVal.obj fs => JVal.obj (stripFields fs)
  | v => v

def stripArr : List JVal → List JVal
  | [] => []
  | x :: xs => stripReadOnly x :: stripArr xs

def stripFields : List (String × JVal) → List (String × JVal)
  | [] => []
  | (k, v) :: fs =>
    if denyKeys.contains k then stripFields fs
    else (k, stripReadOnly v) :: stripFields fs

end

/-- The commit path of `computePatchAndOpenConfirm` (lines 466-485): strip
the read-only keys from both sides, diff, and default an absent diff to the
empty patch (`const patch = d ?? {}`).  `confirmPatch` sends exactly this
value as the PATCH body. -/
def computePatch (original edited : JVal) : JVal :=
  (deepDiff (stripReadOnly original) (stripReadOnly edited)).getD (JVal.obj [])

mutual

/-- No denied key occurs at any nesting level. -/
def noDenied : JVal → Bool
  | JVal.arr xs => noDeniedArr xs
  | JVal.obj fs => noDeniedFields fs
  | _ => true

def noDeniedArr : List JVal → Bool
  | [] => true
  | x :: xs => noDenied x && noDeniedArr xs

def noDeniedFields : List (String × JVal) → Bool
  | [] => true
  | (k, v) :: fs => !denyKeys.contains k && noDenied v && noDeniedFields fs

end

/-! ### collectDiffLines (src/unnamed/part_000 lines 48-90)

```js
function collectDiffLines(a, b, path = "") {
  if (a === b) return [];
  if (Array.isArray(a) || Array.isArray(b)) {
    // equal JSON.stringify -> []; else one remove and one add line
  }
  if (!isObj(a) || !isObj(b)) { /* one remove and one add line */ }
  // both objects: keys of the union, sorted; per key:
  //   !(k in b) -> remove line with fmt(a[k])
  //   !(k in a) -> add line with fmt(b[k])
  //   otherwise recurse with path extended by ".k"
}
```
`fmt` is `JSON.stringify` on every value. -/

inductive DKind where
  | add : DKind
  | remove : DKind
  | ctx : DKind
deriving DecidableEq

structure DiffLine where
  kind : DKind
  text : String
deriving DecidableEq

/-- UTF-32 code-point order on strings, matching the default JavaScript
`Array.prototype.sort` comparator on the BMP key strings involved. -/
def charListLe : List Char → List Char → Bool
  | [], _ => true
  | _ :: _, [] => false
  | a :: as, b :: bs =>
    if a.toNat < b.toNat then true
    else if b.toNat < a.toNat then false
    else charListLe as bs

def strLe (a b : String) : Bool := charListLe a.data b.data

def insertSorted (x : String) : List String → List String
  | [] => [x]
  | y :: ys => if strLe x y then x :: y :: ys else y :: insertSorted x ys

def sortStrs : List String → List String
  | [] => []
  | x :: xs => insertSorted x (sortStrs xs)

/-- The union key set of the object branch, sorted
(`[...keys].sort()` on the `Set` union). -/
def sortedUnionKeys (os es : List (String × JVal)) : List String :=
  sortStrs (unionKeys os es)

/-- Path extension: `path ? path + "." + k : k`. -/
def pathJoin (path k : String) : String :=
  if path = "" then k else path ++ "." ++ k

/-- Path rendering: the empty root path prints as `<root>`. -/
def showPath (path : String) : String :=
  if path = "" then "<root>" else path

/-- `fmt` of lines 43-46: `JSON.stringify` in both branches. -/
def fmtJ (v : JVal) : String := stringify v

/-- `Array.isArray`. -/
def isArrB : JVal → Bool
  | JVal.arr _ => true
  | _ => false

/-- `isObj(x)`: a non-null object that is not an array. -/
def isObjB : JVal → Bool
  | JVal.obj _ => true
  | _ => false

/-- Removal of one key from an object's field list: the edited value of the
no-deletion claim. -/
def removeKey (k : String) (fs : List (String × JVal)) : List (String × JVal) :=
  fs.filter (fun kv => kv.1 != k)

mutual

/-- The git-style diff renderer of lines 48-90. -/
def collectDiffLines (a b : JVal) (path : String) : List DiffLine :=
  if primEq a b then []
  else if isArrB a || isArrB b then
    if stringify a == stringify b then []
    else
      [⟨DKind.remove, "- " ++ showPath path ++ ": " ++ stringify a⟩,
       ⟨DKind.add, "+ " ++ showPath path ++ ": " ++ stringify b⟩]
  else
    match a, b with
    | JVal.obj as, JVal.obj bs => collectFields as bs path (sortedUnionKeys as bs)
    | a, b =>
      [⟨DKind.remove, "- " ++ showPath path ++ ": " ++ fmtJ a⟩,
       ⟨DKind.add, "+ " ++ showPath path ++ ": " ++ fmtJ b⟩]
termination_by (sizeOf a + sizeOf b, 0)
decreasing_by
  apply Prod.Lex.left
  simp
  omega

/-- The loop over the sorted union keys of the object branch. -/
def collectFields (as bs : List (String × JVal)) (path : String) :
    List String → List DiffLine
  | [] => []
  | k :: ks =>
    (match hb : lookupJ k bs with
     | none =>
       [⟨DKind.remove, "- " ++ pathJoin path k ++ ": " ++
          (match lookupJ k as with
           | some av => fmtJ av
           | none => "undefined")⟩]
     | some bv =>
       match ha : lookupJ k as with
       | none => [⟨DKind.add, "+ " ++ pathJoin path k ++ ": " ++ fmtJ bv⟩]
       | some av => collectDiffLines av bv (pathJoin path k)) ++
    collectFields as bs path ks
termination_by ks => (sizeOf as + sizeOf bs, ks.length)
decreasing_by
  · apply Prod.Lex.left
    have h1 := lookupJ_sizeOf hb
    have h2 := lookupJ_sizeOf ha
    omega
  · apply Prod.Lex.right
    simp

end

/-- The commit-confirmation modal renders
`collectDiffLines(stripReadOnly(originalQueue), stripReadOnly(editedParsed))`
(lines 903-908). -/
def commitPreviewLines (original edited : JVal) : List DiffLine :=
  collectDiffLines (stripReadOnly original) (stripReadOnly edited) ""

mutual

/-- Well-formed JSON value: no object carries a duplicate key (a JavaScript
object cannot; the spec's data model states keys are unique). -/
def wfJ : JVal → Bool
  | JVal.arr xs => wfArr xs
  | JVal.obj fs => (keysOf fs).Nodup && wfFields fs
  | _ => true

def wfArr : List JVal → Bool
  | [] => true
  | x :: xs => wfJ x && wfArr xs

def wfFields : List (String × JVal) → Bool
  | [] => true
  | (_, v) :: fs => wfJ v && wfFields fs

end

/-! ### Worker API routing (src/worker/src/index.ts, handleApi) -/

/-- Outcome of the worker's `handleApi` dispatch: which handler a request
reaches, or the `api_not_found` 404 fallthrough. -/
inductive ApiRoute where
  | listQueues : ApiRoute
  | createQueue : ApiRoute
  | bulkCreate : ApiRoute
  | patchQueue (id : String) : ApiRoute
  | notFound : ApiRoute
deriving DecidableEq

/-- Drop a literal character sequence from the front, or fail. -/
def stripLit : List Char → List Char → Option (List Char)
  | [], rest => some rest
  | _ :: _, [] => none
  | p :: ps, c :: cs => if c = p then stripLit ps cs else none

/-- The regex `^\/api\/queues\/([^/]+)$`: after the literal
`/api/queues/`, a non-empty capture containing no slash. -/
def matchQueueId (path : String) : Option String :=
  match stripLit "/api/queues/".data path.data with
  | some rest =>
    if rest ≠ [] ∧ ¬ rest.contains '/' then some (⟨rest⟩ : String) else none
  | none => none

/-- `handleApi` (worker lines 295-317): exact-path dispatch for the
collection routes, then the id regex guarded by `req.method === "PATCH"`,
then the `api_not_found` 404. -/
def handleApi (method path : String) : ApiRoute :=
  if path = "/api/queues" ∧ method = "GET" then ApiRoute.listQueues
  else if path = "/api/queues" ∧ method = "POST" then ApiRoute.createQueue
  else if path = "/api/queues/bulk" ∧ method = "POST" then ApiRoute.bulkCreate
  else
    match matchQueueId path with
    | some id => if method = "PATCH" then ApiRoute.patchQueue id else ApiRoute.notFound
    | none => ApiRoute.notFound

/-! ### Delete confirmation (src/unnamed/part_000, confirmDelete lines 514-535) -/

/-- Outcome of `confirmDelete`: either the guard blocks with the inline
error, or the `deleteQueue` request is issued. -/
inductive DeleteOutcome where
  | blocked (msg : String) : DeleteOutcome
  | requested : DeleteOutcome
deriving DecidableEq

/-- JavaScript `String.prototype.trim` whitespace: tab, LF, VT, FF, CR,
space (plus NBSP and the BOM; further Unicode space separators behave the
same way and are not exercised by any claim). -/
def isJsWs (c : Char) : Bool :=
  c.toNat = 9 ∨ c.toNat = 10 ∨ c.toNat = 11 ∨ c.toNat = 12 ∨ c.toNat = 13 ∨
  c.toNat = 32 ∨ c.toNat = 160 ∨ c.toNat = 65279

def dropWs : List Char → List Char
  | [] => []
  | c :: cs => if isJsWs c then dropWs cs else c :: cs

/-- `String.prototype.trim`: strip leading and trailing whitespace. -/
def jsTrim (s : String) : String :=
  ⟨(dropWs (dropWs s.data).reverse).reverse⟩

/-- `String.prototype.toUpperCase` on the basic Latin letters (the
comparison target `"DELETE"` is ASCII, so the full Unicode mapping is not
needed: any non-ASCII letter stays distinct from it either way). -/
def jsUpperChar (c : Char) : Char :=
  if 97 ≤ c.toNat ∧ c.toNat ≤ 122 then Char.ofNat (c.toNat - 32) else c

def jsUpper (s : String) : String := ⟨s.data.map jsUpperChar⟩

/-- The guard of `confirmDelete`:
`deleteConfirmText.trim().toUpperCase() !== "DELETE"` blocks with an error
and sends nothing; otherwise `deleteQueue(id)` is issued. -/
def confirmDelete (deleteConfirmText : String) : DeleteOutcome :=
  if jsUpper (jsTrim deleteConfirmText) ≠ "DELETE" then
    DeleteOutcome.blocked "To delete, type DELETE in the confirmation box."
  else DeleteOutcome.requested

/-! ### Spec-side notions used to state the claims -/

mutual

/-- Key-coverage of a patch by the edited value: at simultaneous object
nodes every patch key must exist on the edited side (recursively); at any
other node the patch must carry exactly the edited sub-value.  This is the
statement-side notion for the no-deletion invariant. -/
def coveredBy : JVal → JVal → Bool
  | JVal.obj ps, JVal.obj es => coveredFields ps es
  | p, e => jbeq p e

def coveredFields : List (String × JVal) → List (String × JVal) → Bool
  | [], _ => true
  | (k, v) :: ps, es =>
    (match h : lookupJ k es with
     | some w => coveredBy v w
     | none => false) && coveredFields ps es

end

/-- Every key of `gs` is present in `fs`. -/
def keysIncluded (gs fs : List (String × JVal)) : Bool :=
  gs.all (fun kv => (lookupJ kv.1 fs).isSome)

mutual

/-- Equality of JSON values as the spec's data model compares them: arrays
element-wise in order, object fields as a finite mapping (key insertion
order irrelevant).  This is the comparison the diff claims quantify over. -/
def jvalEquiv : JVal → JVal → Bool
  | JVal.arr xs, JVal.arr ys => equivArr xs ys
  | JVal.obj fs, JVal.obj gs => equivFields fs gs && keysIncluded gs fs
  | a, b => primEq a b

def equivArr : List JVal → List JVal → Bool
  | [], [] => true
  | x :: xs, y :: ys => jvalEquiv x y && equivArr xs ys
  | _, _ => false

def equivFields : List (String × JVal) → List (String × JVal) → Bool
  | [], _ => true
  | (k, v) :: fs, gs =>
    (match h : lookupJ k gs with
     | some w => jvalEquiv v w
     | none => false) && equivFields fs gs

end

mutual

/-- The deep merge described by claim C9: where both the base and the patch
entry are non-array objects, merge key-wise (patch keys override or extend
the base); anywhere else the patch value replaces the base wholesale. -/
def deepMergePatch : JVal → JVal → JVal
  | JVal.obj bs, JVal.obj ps =>
    JVal.obj (mergeFields bs ps ++ ps.filter (fun kv => (lookupJ kv.1 bs).isNone))
  | _, p => p

def mergeFields : List (String × JVal) → List (String × JVal) →
    List (String × JVal)
  | [], _ => []
  | (k, v) :: bs, ps =>
    (k, match h : lookupJ k ps with
        | some p => deepMergePatch v p
        | none => v) :: mergeFields bs ps

end

/-- Applying the outcome of `deepDiff` to the original: an absent diff
changes nothing, a present diff is deep-merged. -/
def applyPatch (a : JVal) : Option JVal → JVal
  | none => a
  | some p => deepMergePatch a p

mutual

/-- Hypothesis of claim C9: at every simultaneous node where both sides are
non-array objects, the key set of the first is included in the key set of
the second (no key was deleted). -/
def keysCompat : JVal → JVal → Bool
  | JVal.obj fs, JVal.obj gs => keysIncluded fs gs && compatFields fs gs
  | _, _ => true

def compatFields : List (String × JVal) → List (String × JVal) → Bool
  | [], _ => true
  | (k, v) :: fs, gs =>
    (match h : lookupJ k gs with
     | some w => keysCompat v w
     | none => true) && compatFields fs gs

end

/-! ### Auxiliary notions used by the injectivity development -/

/-- Decimal value of a digit string, the left inverse of `natChars`. -/
def valOfDigits (l : List Char) : Nat :=
  l.foldl (fun acc c => acc * 10 + (c.toNat - 48)) 0

/-- The next character (if any) is neither a decimal digit nor a minus
sign, so it cannot extend a serialized number. -/
def NoNumHead (r : List Char) : Prop :=
  ∀ c t, r = c :: t → (c.toNat < 48 ∨ 57 < c.toNat) ∧ c.toNat ≠ 45

/-- The single-character escape table: the character standing after the
backslash, when `c` has a two-character escape. -/
def singleEsc (c : Char) : Option Char :=
  if c = '"' then some '"'
  else if c = '\\' then some '\\'
  else if c.toNat = 8 then some 'b'
  else if c.toNat = 9 then some 't'
  else if c.toNat = 10 then some 'n'
  else if c.toNat = 12 then some 'f'
  else if c.toNat = 13 then some 'r'
  else none

/-- Constraint on the code of the first serialized character, by
constructor. -/
def startOKN : JVal → Nat → Prop
  | JVal.null, k => k = 110
  | JVal.bool _, k => k = 116 ∨ k = 102
  | JVal.num _, k => (48 ≤ k ∧ k ≤ 57) ∨ k = 45
  | JVal.str _, k => k = 34
  | JVal.arr _, k => k = 91
  | JVal.obj _, k => k = 123

/-- Constructor discriminant. -/
def ctorIdx : JVal → Nat
  | JVal.null => 0
  | JVal.bool _ => 1
  | JVal.num _ => 2
  | JVal.str _ => 3
  | JVal.arr _ => 4
  | JVal.obj _ => 5

/-- After a complete serialized value only a separator, a closing bracket,
or the end of the output can follow. -/
def IsFollower : List Char → Prop
  | [] => True
  | c :: _ => c.toNat = 44 ∨ c.toNat = 93 ∨ c.toNat = 125

/-! ### Structural induction utilities -/

theorem sizeOf_pos_jval : ∀ (v : JVal), 0 < sizeOf v := by
  intro v
  cases v <;> simp

theorem sizeOf_lt_of_mem_arr {x : JVal} : ∀ {xs : List JVal},
    x ∈ xs → sizeOf x < sizeOf xs := by
  intro xs h
  induction xs with
  | nil => cases h
  | cons y ys ih =>
    rcases List.mem_cons.mp h with h1 | h2
    · subst h1; simp; omega
    · have := ih h2; simp; omega

theorem sizeOf_lt_of_mem_fields {kv : String × JVal} :
    ∀ {fs : List (String × JVal)}, kv ∈ fs → sizeOf kv.2 < sizeOf fs := by
  intro fs h
  induction fs with
  | nil => cases h
  | cons g gs ih =>
    rcases List.mem_cons.mp h with h1 | h2
    · subst h1
      rcases kv with ⟨k, v⟩
      simp
      omega
    · have := ih h2; simp; omega

/-- Strong structural induction over JSON values, recursing through the
nested lists. -/
theorem jval_ind (motive : JVal → Prop)
    (hnull : motive JVal.null)
    (hbool : ∀ b, motive (JVal.bool b))
    (hnum : ∀ n, motive (JVal.num n))
    (hstr : ∀ s, motive (JVal.str s))
    (harr : ∀ xs, (∀ x ∈ xs, motive x) → motive (JVal.arr xs))
    (hobj : ∀ fs, (∀ kv ∈ fs, motive kv.2) → motive (JVal.obj fs)) :
    ∀ v, motive v := by
  suffices H : ∀ (n : Nat) (v : JVal), sizeOf v ≤ n → motive v from
    fun v => H (sizeOf v) v le_rfl
  intro n
  induction n with
  | zero =>
    intro v h
    have := sizeOf_pos_jval v
    omega
  | succ n ih =>
    intro v h
    cases v with
    | null => exact hnull
    | bool b => exact hbool b
    | num i => exact hnum i
    | str s => exact hstr s
    | arr xs =>
      refine harr xs (fun x hx => ih x ?_)
      have h1 := sizeOf_lt_of_mem_arr hx
      simp at h
      omega
    | obj fs =>
      refine hobj fs (fun kv hkv => ih kv.2 ?_)
      have h1 := sizeOf_lt_of_mem_fields hkv
      simp at h
      omega

theorem lookupJ_mem {k : String} : ∀ {fs : List (String × JVal)} {v : JVal},
    lookupJ k fs = some v → (k, v) ∈ fs := by
  intro fs
  induction fs with
  | nil => intro v h; simp [lookupJ] at h
  | cons g gs ih =>
    intro v h
    rcases g with ⟨k2, w⟩
    by_cases hk : k2 = k
    · subst hk
      simp [lookupJ] at h
      subst h
      exact List.mem_cons_self _ _
    · simp [lookupJ, hk] at h
      exact List.mem_cons_of_mem _ (ih h)

theorem jbeq_refl : ∀ (v : JVal), jbeq v v = true := by
  intro v
  induction v using jval_ind with
  | hnull => simp [jbeq]
  | hbool b => simp [jbeq]
  | hnum n => simp [jbeq]
  | hstr s => simp [jbeq]
  | harr xs ih =>
    simp only [jbeq]
    induction xs with
    | nil => simp [jbeqArr]
    | cons x t iht =>
      simp only [jbeqArr, Bool.and_eq_true]
      exact ⟨ih x (List.mem_cons_self _ _),
             iht (fun y hy => ih y (List.mem_cons_of_mem _ hy))⟩
  | hobj fs ih =>
    simp only [jbeq]
    induction fs with
    | nil => simp [jbeqObj]
    | cons g gs ihg =>
      rcases g with ⟨k, v⟩
      simp only [jbeqObj, Bool.and_eq_true, beq_self_eq_true]
      refine ⟨⟨trivial, ih ⟨k, v⟩ (List.mem_cons_self _ _)⟩,
              ihg (fun kv hkv => ih kv (List.mem_cons_of_mem _ hkv))⟩

/-! ### Injectivity of the serializer: numbers -/

theorem digitChar_toNat {d : Nat} (h : d < 10) : (digitChar d).toNat = 48 + d := by
  interval_cases d <;> rfl

theorem natChars_ne_nil (n : Nat) : natChars n ≠ [] := by
  rw [natChars]
  split_ifs <;> simp

theorem natChars_digits :
    ∀ (n : Nat), ∀ c ∈ natChars n, 48 ≤ c.toNat ∧ c.toNat ≤ 57 := by
  intro n
  induction n using Nat.strong_induction_on with
  | _ n ih =>
    intro c hc
    rw [natChars] at hc
    split_ifs at hc with h
    · simp at hc
      subst hc
      rw [digitChar_toNat h]
      omega
    · rcases List.mem_append.mp hc with h1 | h2
      · exact ih (n / 10) (Nat.div_lt_self (by omega) (by omega)) c h1
      · simp at h2
        subst h2
        rw [digitChar_toNat (Nat.mod_lt _ (by omega))]
        omega

theorem valOfDigits_natChars : ∀ (n : Nat), valOfDigits (natChars n) = n := by
  intro n
  induction n using Nat.strong_induction_on with
  | _ n ih =>
    rw [natChars]
    split_ifs with h
    · simp [valOfDigits]
      rw [digitChar_toNat h]
      omega
    · have hdiv := ih (n / 10) (Nat.div_lt_self (by omega) (by omega))
      simp only [valOfDigits, List.foldl_append, List.foldl_cons, List.foldl_nil]
      rw [show (natChars (n / 10)).foldl
            (fun acc c => acc * 10 + (c.toNat - 48)) 0 = n / 10 from hdiv]
      rw [digitChar_toNat (Nat.mod_lt _ (by omega))]
      omega

theorem natChars_inj {m n : Nat} (h : natChars m = natChars n) : m = n := by
  have h1 := valOfDigits_natChars m
  rw [h, valOfDigits_natChars] at h1
  omega

theorem natChars_pfx {m n : Nat} {r s : List Char}
    (h : natChars m ++ r = natChars n ++ s)
    (hr : NoNumHead r) (hs : NoNumHead s) : m = n ∧ r = s := by
  rcases List.append_eq_append_iff.mp h with ⟨t, ht1, ht2⟩ | ⟨t, ht1, ht2⟩
  · cases t with
    | nil =>
      simp at ht1 ht2
      exact ⟨natChars_inj ht1.symm, ht2⟩
    | cons c t2 =>
      exfalso
      have hc : c ∈ natChars n := by
        rw [ht1]
        exact List.mem_append.mpr (Or.inr (List.mem_cons_self _ _))
      have hd := natChars_digits n c hc
      have := (hr c (t2 ++ s) ht2).1
      omega
  · cases t with
    | nil =>
      simp at ht1 ht2
      exact ⟨natChars_inj ht1, ht2.symm⟩
    | cons c t2 =>
      exfalso
      have hc : c ∈ natChars m := by
        rw [ht1]
        exact List.mem_append.mpr (Or.inr (List.mem_cons_self _ _))
      have hd := natChars_digits m c hc
      have := (hs c (t2 ++ r) ht2).1
      omega

theorem intChars_pfx {m n : Int} {r s : List Char}
    (h : intChars m ++ r = intChars n ++ s)
    (hr : NoNumHead r) (hs : NoNumHead s) : m = n ∧ r = s := by
  unfold intChars at h
  split_ifs at h with hm hn hn
  · simp only [List.cons_append, List.cons.injEq] at h
    obtain ⟨heq, hrs⟩ := natChars_pfx h.2 hr hs
    refine ⟨?_, hrs⟩
    omega
  · exfalso
    obtain ⟨c, cs, hc⟩ := List.exists_cons_of_ne_nil (natChars_ne_nil n.toNat)
    rw [hc] at h
    simp only [List.cons_append, List.cons.injEq] at h
    have hd := natChars_digits n.toNat c (by rw [hc]; exact List.mem_cons_self _ _)
    have h45 : ('-').toNat = 45 := rfl
    rw [← h.1, h45] at hd
    omega
  · exfalso
    obtain ⟨c, cs, hc⟩ := List.exists_cons_of_ne_nil (natChars_ne_nil m.toNat)
    rw [hc] at h
    simp only [List.cons_append, List.cons.injEq] at h
    have hd := natChars_digits m.toNat c (by rw [hc]; exact List.mem_cons_self _ _)
    have h45 : ('-').toNat = 45 := rfl
    rw [h.1, h45] at hd
    omega
  · obtain ⟨heq, hrs⟩ := natChars_pfx h hr hs
    refine ⟨?_, hrs⟩
    omega

/-! ### Injectivity of the serializer: strings -/

theorem char_toNat_inj {c d : Char} (h : c.toNat = d.toNat) : c = d := by
  have hv : c.val = d.val := by
    have h2 : c.val.toNat = d.val.toNat := h
    exact UInt32.toNat.inj h2
  exact Char.ext hv

theorem hexDigit_toNat {d : Nat} (h : d < 16) :
    (hexDigit d).toNat = if d < 10 then 48 + d else 87 + d := by
  interval_cases d <;> rfl

theorem hexDigit_inj {a b : Nat} (ha : a < 16) (hb : b < 16)
    (h : hexDigit a = hexDigit b) : a = b := by
  have h1 : (hexDigit a).toNat = (hexDigit b).toNat := by rw [h]
  rw [hexDigit_toNat ha, hexDigit_toNat hb] at h1
  split_ifs at h1 <;> omega

theorem escapeChar_classify (c : Char) :
    (∃ m, singleEsc c = some m ∧ escapeChar c = ['\\', m]) ∨
    (singleEsc c = none ∧ c.toNat < 32 ∧
      escapeChar c = ['\\', 'u', '0', '0',
        hexDigit (c.toNat / 16), hexDigit (c.toNat % 16)]) ∨
    (singleEsc c = none ∧ 32 ≤ c.toNat ∧ c ≠ '"' ∧ c ≠ '\\' ∧
      escapeChar c = [c]) := by
  by_cases h1 : c = '"'
  · exact Or.inl ⟨'"', by simp [singleEsc, h1], by simp [escapeChar, h1]⟩
  by_cases h2 : c = '\\'
  · exact Or.inl ⟨'\\', by simp [singleEsc, h1, h2], by simp [escapeChar, h1, h2]⟩
  by_cases h3 : c.toNat = 8
  · exact Or.inl ⟨'b', by simp [singleEsc, h1, h2, h3],
      by simp [escapeChar, h1, h2, h3]⟩
  by_cases h4 : c.toNat = 9
  · exact Or.inl ⟨'t', by simp [singleEsc, h1, h2, h3, h4],
      by simp [escapeChar, h1, h2, h3, h4]⟩
  by_cases h5 : c.toNat = 10
  · exact Or.inl ⟨'n', by simp [singleEsc, h1, h2, h3, h4, h5],
      by simp [escapeChar, h1, h2, h3, h4, h5]⟩
  by_cases h6 : c.toNat = 12
  · exact Or.inl ⟨'f', by simp [singleEsc, h1, h2, h3, h4, h5, h6],
      by simp [escapeChar, h1, h2, h3, h4, h5, h6]⟩
  by_cases h7 : c.toNat = 13
  · exact Or.inl ⟨'r', by simp [singleEsc, h1, h2, h3, h4, h5, h6, h7],
      by simp [escapeChar, h1, h2, h3, h4, h5, h6, h7]⟩
  by_cases h8 : c.toNat < 32
  · exact Or.inr (Or.inl ⟨by simp [singleEsc, h1, h2, h3, h4, h5, h6, h7], h8,
      by simp [escapeChar, h1, h2, h3, h4, h5, h6, h7, h8]⟩)
  · exact Or.inr (Or.inr ⟨by simp [singleEsc, h1, h2, h3, h4, h5, h6, h7],
      by omega, h1, h2,
      by simp [escapeChar, h1, h2, h3, h4, h5, h6, h7, h8]⟩)

theorem singleEsc_retract {c m : Char} (hc : singleEsc c = some m) :
    (m.toNat = 34 ∧ c.toNat = 34) ∨ (m.toNat = 92 ∧ c.toNat = 92) ∨
    (m.toNat = 98 ∧ c.toNat = 8) ∨ (m.toNat = 116 ∧ c.toNat = 9) ∨
    (m.toNat = 110 ∧ c.toNat = 10) ∨ (m.toNat = 102 ∧ c.toNat = 12) ∨
    (m.toNat = 114 ∧ c.toNat = 13) := by
  unfold singleEsc at hc
  split_ifs at hc with h1 h2 h3 h4 h5 h6 h7
  · injection hc with hm
    subst hm
    subst h1
    exact Or.inl ⟨rfl, rfl⟩
  · injection hc with hm
    subst hm
    subst h2
    exact Or.inr (Or.inl ⟨rfl, rfl⟩)
  · injection hc with hm
    subst hm
    exact Or.inr (Or.inr (Or.inl ⟨rfl, h3⟩))
  · injection hc with hm
    subst hm
    exact Or.inr (Or.inr (Or.inr (Or.inl ⟨rfl, h4⟩)))
  · injection hc with hm
    subst hm
    exact Or.inr (Or.inr (Or.inr (Or.inr (Or.inl ⟨rfl, h5⟩))))
  · injection hc with hm
    subst hm
    exact Or.inr (Or.inr (Or.inr (Or.inr (Or.inr (Or.inl ⟨rfl, h6⟩)))))
  · injection hc with hm
    subst hm
    exact Or.inr (Or.inr (Or.inr (Or.inr (Or.inr (Or.inr ⟨rfl, h7⟩)))))

theorem singleEsc_inj {c d m : Char} (hc : singleEsc c = some m)
    (hd : singleEsc d = some m) : c = d := by
  rcases singleEsc_retract hc with h | h | h | h | h | h | h <;>
    rcases singleEsc_retract hd with h2 | h2 | h2 | h2 | h2 | h2 | h2 <;>
    (apply char_toNat_inj; omega)

theorem singleEsc_ne_u {c m : Char} (hc : singleEsc c = some m) : m ≠ 'u' := by
  intro hm
  subst hm
  have hu : ('u').toNat = 117 := rfl
  rcases singleEsc_retract hc with h | h | h | h | h | h | h <;> omega

theorem singleEsc_ne_bs {c m : Char} (hc : singleEsc c = some m) :
    ('\\').toNat = 92 := rfl

/-- One escape sequence can never be a proper prefix of another: matching
concatenations decode the same first character. -/
theorem escapeChar_pfx {c d : Char} {x y : List Char}
    (h : escapeChar c ++ x = escapeChar d ++ y) : c = d ∧ x = y := by
  have h92 : ('\\').toNat = 92 := rfl
  rcases escapeChar_classify c with ⟨m, hm, he⟩ | ⟨-, hlt, he⟩ | ⟨-, hge, hq, hbs, he⟩ <;>
    rcases escapeChar_classify d with ⟨m2, hm2, he2⟩ | ⟨-, hlt2, he2⟩ |
      ⟨-, hge2, hq2, hbs2, he2⟩ <;>
    rw [he, he2] at h <;>
    simp only [List.cons_append, List.cons.injEq, List.nil_append] at h
  · obtain ⟨-, hmm, hxy⟩ := h
    subst hmm
    exact ⟨singleEsc_inj hm hm2, hxy⟩
  · exact absurd h.2.1 (singleEsc_ne_u hm)
  · exfalso
    apply hbs2
    apply char_toNat_inj
    rw [← h.1, h92]
  · exact absurd h.2.1.symm (singleEsc_ne_u hm2)
  · obtain ⟨-, -, -, -, hh, hl, hxy⟩ := h
    have hdivc : c.toNat / 16 < 16 := by omega
    have hdivd : d.toNat / 16 < 16 := by omega
    have hmodc : c.toNat % 16 < 16 := Nat.mod_lt _ (by omega)
    have hmodd : d.toNat % 16 < 16 := Nat.mod_lt _ (by omega)
    have e1 := hexDigit_inj hdivc hdivd hh
    have e2 := hexDigit_inj hmodc hmodd hl
    refine ⟨char_toNat_inj ?_, hxy⟩
    omega
  · exfalso
    apply hbs2
    apply char_toNat_inj
    rw [← h.1, h92]
  · exfalso
    apply hbs
    apply char_toNat_inj
    rw [h.1, h92]
  · exfalso
    apply hbs
    apply char_toNat_inj
    rw [h.1, h92]
  · exact ⟨h.1, h.2⟩

theorem escapeChar_head {d : Char} :
    ∃ e es, escapeChar d = e :: es ∧ e ≠ '"' := by
  have h92 : ('\\').toNat = 92 := rfl
  have h34 : ('"').toNat = 34 := rfl
  rcases escapeChar_classify d with ⟨m, hm, he⟩ | ⟨-, hlt, he⟩ | ⟨-, hge, hq, hbs, he⟩
  · exact ⟨'\\', [m], he, fun hh => by
      have := congrArg Char.toNat hh
      omega⟩
  · exact ⟨'\\', _, he, fun hh => by
      have := congrArg Char.toNat hh
      omega⟩
  · exact ⟨d, [], he, hq⟩

theorem escBody_pfx : ∀ (la : List Char) {lb : List Char} {r s : List Char},
    escBody la ++ ('"' :: r) = escBody lb ++ ('"' :: s) → la = lb ∧ r = s := by
  intro la
  induction la with
  | nil =>
    intro lb r s h
    cases lb with
    | nil =>
      simp only [escBody, List.nil_append, List.cons.injEq] at h
      exact ⟨rfl, h.2⟩
    | cons d lb2 =>
      exfalso
      obtain ⟨e, es, hee, hne⟩ := @escapeChar_head d
      simp only [escBody, List.nil_append, List.append_assoc, hee,
        List.cons_append, List.cons.injEq] at h
      exact hne h.1.symm
  | cons c la2 ih =>
    intro lb r s h
    cases lb with
    | nil =>
      exfalso
      obtain ⟨e, es, hee, hne⟩ := @escapeChar_head c
      simp only [escBody, List.nil_append, List.append_assoc, hee,
        List.cons_append, List.cons.injEq] at h
      exact hne h.1
    | cons d lb2 =>
      simp only [escBody, List.append_assoc] at h
      obtain ⟨hcd, htail⟩ := escapeChar_pfx h
      subst hcd
      obtain ⟨hl, hrs⟩ := ih htail
      exact ⟨by rw [hl], hrs⟩

theorem string_data_inj {a b : String} (h : a.data = b.data) : a = b := by
  cases a
  cases b
  simp at h
  rw [h]

theorem encodeStr_pfx {a b : String} {r s : List Char}
    (h : encodeStr a ++ r = encodeStr b ++ s) : a = b ∧ r = s := by
  simp only [encodeStr, List.cons_append, List.append_assoc, List.cons.injEq,
    List.singleton_append] at h
  obtain ⟨-, h2⟩ := h
  obtain ⟨hd, hrs⟩ := escBody_pfx a.data h2
  exact ⟨string_data_inj hd, hrs⟩

/-! ### Injectivity of the serializer: values -/

theorem stringify_start :
    ∀ (v : JVal), ∃ c t, stringifyChars v = c :: t ∧ startOKN v c.toNat := by
  intro v
  cases v with
  | null =>
    exact ⟨'n', ['u', 'l', 'l'], by simp [stringifyChars], by simp [startOKN]⟩
  | bool bb =>
    cases bb with
    | true =>
      exact ⟨'t', ['r', 'u', 'e'], by simp [stringifyChars], by simp [startOKN]⟩
    | false =>
      exact ⟨'f', ['a', 'l', 's', 'e'], by simp [stringifyChars],
        by simp [startOKN]⟩
  | num i =>
    by_cases hi : i < 0
    · refine ⟨'-', natChars (-i).toNat, by simp [stringifyChars, intChars, hi], ?_⟩
      simp [startOKN]
    · obtain ⟨c, cs, hc⟩ := List.exists_cons_of_ne_nil (natChars_ne_nil i.toNat)
      refine ⟨c, cs, by simp [stringifyChars, intChars, hi, hc], ?_⟩
      have := natChars_digits i.toNat c (by rw [hc]; exact List.mem_cons_self _ _)
      simp [startOKN]
      omega
  | str s =>
    exact ⟨'"', escBody s.data ++ ['"'], by simp [stringifyChars, encodeStr],
      by simp [startOKN]⟩
  | arr xs =>
    exact ⟨'[', arrChars xs ++ [']'], by simp [stringifyChars], by simp [startOKN]⟩
  | obj fs =>
    exact ⟨'{', objChars fs ++ ['}'], by simp [stringifyChars], by simp [startOKN]⟩

/-- No serialized value starts with a delimiter (`,`, `:`, `]`, `}`). -/
theorem startOKN_ne {v : JVal} {k : Nat} (h : startOKN v k) :
    k ≠ 44 ∧ k ≠ 58 ∧ k ≠ 93 ∧ k ≠ 125 := by
  cases v <;> simp [startOKN] at h <;> omega

theorem sc_ctor_eq {a b : JVal} {r s : List Char}
    (h : stringifyChars a ++ r = stringifyChars b ++ s) :
    ctorIdx a = ctorIdx b := by
  obtain ⟨c1, t1, hc1, hs1⟩ := stringify_start a
  obtain ⟨c2, t2, hc2, hs2⟩ := stringify_start b
  rw [hc1, hc2] at h
  simp only [List.cons_append, List.cons.injEq] at h
  rw [← h.1] at hs2
  cases a <;> cases b <;> simp only [startOKN, ctorIdx] at hs1 hs2 ⊢ <;> omega

/-- A serialized cons cell always begins with its head's serialization. -/
theorem arrChars_cons (y : JVal) (t : List JVal) :
    ∃ rest, arrChars (y :: t) = stringifyChars y ++ rest := by
  cases t with
  | nil => exact ⟨[], by simp [arrChars]⟩
  | cons z t2 => exact ⟨',' :: arrChars (z :: t2), by simp [arrChars]⟩

theorem objChars_cons (k : String) (v : JVal) (t : List (String × JVal)) :
    ∃ rest, objChars ((k, v) :: t) =
      encodeStr k ++ (':' :: (stringifyChars v ++ rest)) := by
  cases t with
  | nil => exact ⟨[], by simp [objChars]⟩
  | cons g t2 =>
    exact ⟨',' :: objChars (g :: t2), by simp [objChars, List.append_assoc]⟩

theorem follower_cons {c : Char} (t : List Char)
    (h : c.toNat = 44 ∨ c.toNat = 93 ∨ c.toNat = 125) : IsFollower (c :: t) := h

theorem follower_noNumHead {r : List Char} (h : IsFollower r) : NoNumHead r := by
  intro c t ht
  subst ht
  simp only [IsFollower] at h
  omega

theorem sc_head_not_delim (v : JVal) {c : Char} {t rest : List Char}
    (h : c :: t = stringifyChars v ++ rest)
    (hc : c.toNat = 44 ∨ c.toNat = 58 ∨ c.toNat = 93 ∨ c.toNat = 125) :
    False := by
  obtain ⟨c2, t2, hc2, hsk⟩ := stringify_start v
  rw [hc2] at h
  simp only [List.cons_append, List.cons.injEq] at h
  obtain ⟨he, -⟩ := h
  subst he
  have h2 := startOKN_ne hsk
  omega

theorem arrChars_pfx :
    ∀ (xs : List JVal),
      (∀ x ∈ xs, ∀ (b : JVal) (r s : List Char), IsFollower r → IsFollower s →
        stringifyChars x ++ r = stringifyChars b ++ s → x = b ∧ r = s) →
      ∀ (ys : List JVal) (r s : List Char),
        arrChars xs ++ (']' :: r) = arrChars ys ++ (']' :: s) →
        xs = ys ∧ r = s := by
  intro xs
  induction xs with
  | nil =>
    intro _ ys r s h
    cases ys with
    | nil =>
      simp only [arrChars, List.nil_append, List.cons.injEq] at h
      exact ⟨rfl, h.2⟩
    | cons y t =>
      exfalso
      obtain ⟨rest, hrest⟩ := arrChars_cons y t
      rw [hrest] at h
      simp only [arrChars, List.nil_append, List.append_assoc] at h
      exact sc_head_not_delim y h (by decide)
  | cons x txs ih =>
    intro IH ys r s h
    cases ys with
    | nil =>
      exfalso
      obtain ⟨rest, hrest⟩ := arrChars_cons x txs
      rw [hrest] at h
      simp only [arrChars, List.nil_append, List.append_assoc] at h
      exact sc_head_not_delim x h.symm (by decide)
    | cons y tys =>
      cases txs with
      | nil =>
        cases tys with
        | nil =>
          simp only [arrChars] at h
          obtain ⟨hxy, ht⟩ := IH x (List.mem_cons_self _ _) y (']' :: r)
            (']' :: s) (follower_cons _ (by decide)) (follower_cons _ (by decide)) h
          injection ht with _ ht2
          exact ⟨by rw [hxy], ht2⟩
        | cons z tz =>
          simp only [arrChars, List.append_assoc, List.cons_append] at h
          obtain ⟨hxy, ht⟩ := IH x (List.mem_cons_self _ _) y (']' :: r)
            (',' :: (arrChars (z :: tz) ++ ']' :: s))
            (follower_cons _ (by decide)) (follower_cons _ (by decide)) h
          injection ht with h1 _
          exact absurd h1 (by decide)
      | cons w tw =>
        cases tys with
        | nil =>
          simp only [arrChars, List.append_assoc, List.cons_append] at h
          obtain ⟨hxy, ht⟩ := IH x (List.mem_cons_self _ _) y
            (',' :: (arrChars (w :: tw) ++ ']' :: r)) (']' :: s)
            (follower_cons _ (by decide)) (follower_cons _ (by decide)) h
          injection ht with h1 _
          exact absurd h1 (by decide)
        | cons z tz =>
          simp only [arrChars, List.append_assoc, List.cons_append] at h
          obtain ⟨hxy, ht⟩ := IH x (List.mem_cons_self _ _) y
            (',' :: (arrChars (w :: tw) ++ ']' :: r))
            (',' :: (arrChars (z :: tz) ++ ']' :: s))
            (follower_cons _ (by decide)) (follower_cons _ (by decide)) h
          injection ht with _ ht2
          obtain ⟨htl, hrs⟩ :=
            ih (fun u hu => IH u (List.mem_cons_of_mem _ hu)) (z :: tz) r s ht2
          exact ⟨by rw [hxy, htl], hrs⟩

theorem objChars_pfx :
    ∀ (fs : List (String × JVal)),
      (∀ kv ∈ fs, ∀ (b : JVal) (r s : List Char), IsFollower r → IsFollower s →
        stringifyChars kv.2 ++ r = stringifyChars b ++ s → kv.2 = b ∧ r = s) →
      ∀ (gs : List (String × JVal)) (r s : List Char),
        objChars fs ++ ('}' :: r) = objChars gs ++ ('}' :: s) →
        fs = gs ∧ r = s := by
  intro fs
  induction fs with
  | nil =>
    intro _ gs r s h
    cases gs with
    | nil =>
      simp only [objChars, List.nil_append, List.cons.injEq] at h
      exact ⟨rfl, h.2⟩
    | cons g t =>
      exfalso
      obtain ⟨l, w⟩ := g
      obtain ⟨rest, hrest⟩ := objChars_cons l w t
      rw [hrest] at h
      simp only [objChars, List.nil_append, List.append_assoc, encodeStr,
        List.cons_append, List.cons.injEq] at h
      exact absurd h.1 (by decide)
  | cons g tfs ih =>
    intro IH gs r s h
    obtain ⟨k, v⟩ := g
    cases gs with
    | nil =>
      exfalso
      obtain ⟨rest, hrest⟩ := objChars_cons k v tfs
      rw [hrest] at h
      simp only [objChars, List.nil_append, List.append_assoc, encodeStr,
        List.cons_append, List.cons.injEq] at h
      exact absurd h.1 (by decide)
    | cons g2 tgs =>
      obtain ⟨l, w⟩ := g2
      cases tfs with
      | nil =>
        cases tgs with
        | nil =>
          simp only [objChars, List.append_assoc, List.cons_append] at h
          obtain ⟨hkl, ht⟩ := encodeStr_pfx h
          injection ht with _ ht2
          obtain ⟨hvw, ht3⟩ := IH (k, v) (List.mem_cons_self _ _) w ('}' :: r)
            ('}' :: s) (follower_cons _ (by decide))
            (follower_cons _ (by decide)) ht2
          injection ht3 with _ ht4
          simp only at hvw
          exact ⟨by rw [hkl, hvw], ht4⟩
        | cons g3 t3 =>
          simp only [objChars, List.append_assoc, List.cons_append] at h
          obtain ⟨hkl, ht⟩ := encodeStr_pfx h
          injection ht with _ ht2
          obtain ⟨hvw, ht3⟩ := IH (k, v) (List.mem_cons_self _ _) w ('}' :: r)
            (',' :: (objChars (g3 :: t3) ++ '}' :: s))
            (follower_cons _ (by decide)) (follower_cons _ (by decide)) ht2
          injection ht3 with h1 _
          exact absurd h1 (by decide)
      | cons gf tf =>
        cases tgs with
        | nil =>
          simp only [objChars, List.append_assoc, List.cons_append] at h
          obtain ⟨hkl, ht⟩ := encodeStr_pfx h
          injection ht with _ ht2
          obtain ⟨hvw, ht3⟩ := IH (k, v) (List.mem_cons_self _ _) w
            (',' :: (objChars (gf :: tf) ++ '}' :: r)) ('}' :: s)
            (follower_cons _ (by decide)) (follower_cons _ (by decide)) ht2
          injection ht3 with h1 _
          exact absurd h1 (by decide)
        | cons g3 t3 =>
          simp only [objChars, List.append_assoc, List.cons_append] at h
          obtain ⟨hkl, ht⟩ := encodeStr_pfx h
          injection ht with _ ht2
          obtain ⟨hvw, ht3⟩ := IH (k, v) (List.mem_cons_self _ _) w
            (',' :: (objChars (gf :: tf) ++ '}' :: r))
            (',' :: (objChars (g3 :: t3) ++ '}' :: s))
            (follower_cons _ (by decide)) (follower_cons _ (by decide)) ht2
          injection ht3 with _ ht4
          obtain ⟨htl, hrs⟩ :=
            ih (fun u hu => IH u (List.mem_cons_of_mem _ hu)) (g3 :: t3) r s ht4
          simp only at hvw
          exact ⟨by rw [hkl, hvw, htl], hrs⟩

/-- The serializer is a prefix code: equal concatenations with follower
tails decode to equal values and equal tails. -/
theorem sc_pfx : ∀ (a b : JVal) (r s : List Char),
    IsFollower r → IsFollower s →
    stringifyChars a ++ r = stringifyChars b ++ s → a = b ∧ r = s := by
  intro a
  induction a using jval_ind with
  | hnull =>
    intro b r s hr hs h
    cases b with
    | null =>
      simp only [stringifyChars, List.cons_append, List.nil_append,
        List.cons.injEq, true_and] at h
      exact ⟨rfl, h⟩
    | bool bb => exact absurd (sc_ctor_eq h) (by simp [ctorIdx])
    | num j => exact absurd (sc_ctor_eq h) (by simp [ctorIdx])
    | str t => exact absurd (sc_ctor_eq h) (by simp [ctorIdx])
    | arr ys => exact absurd (sc_ctor_eq h) (by simp [ctorIdx])
    | obj gs => exact absurd (sc_ctor_eq h) (by simp [ctorIdx])
  | hbool bb =>
    intro b r s hr hs h
    cases b with
    | null => exact absurd (sc_ctor_eq h) (by simp [ctorIdx])
    | bool bb2 =>
      cases bb <;> cases bb2 <;>
        simp only [stringifyChars, List.cons_append, List.nil_append,
          List.cons.injEq, true_and] at h
      · exact ⟨rfl, h⟩
      · exact absurd h.1 (by decide)
      · exact absurd h.1 (by decide)
      · exact ⟨rfl, h⟩
    | num j => exact absurd (sc_ctor_eq h) (by simp [ctorIdx])
    | str t => exact absurd (sc_ctor_eq h) (by simp [ctorIdx])
    | arr ys => exact absurd (sc_ctor_eq h) (by simp [ctorIdx])
    | obj gs => exact absurd (sc_ctor_eq h) (by simp [ctorIdx])
  | hnum i =>
    intro b r s hr hs h
    cases b with
    | null => exact absurd (sc_ctor_eq h) (by simp [ctorIdx])
    | bool bb => exact absurd (sc_ctor_eq h) (by simp [ctorIdx])
    | num j =>
      simp only [stringifyChars] at h
      obtain ⟨hij, hrs⟩ :=
        intChars_pfx h (follower_noNumHead hr) (follower_noNumHead hs)
      exact ⟨by rw [hij], hrs⟩
    | str t => exact absurd (sc_ctor_eq h) (by simp [ctorIdx])
    | arr ys => exact absurd (sc_ctor_eq h) (by simp [ctorIdx])
    | obj gs => exact absurd (sc_ctor_eq h) (by simp [ctorIdx])
  | hstr s1 =>
    intro b r s hr hs h
    cases b with
    | null => exact absurd (sc_ctor_eq h) (by simp [ctorIdx])
    | bool bb => exact absurd (sc_ctor_eq h) (by simp [ctorIdx])
    | num j => exact absurd (sc_ctor_eq h) (by simp [ctorIdx])
    | str s2 =>
      simp only [stringifyChars] at h
      obtain ⟨hss, hrs⟩ := encodeStr_pfx h
      exact ⟨by rw [hss], hrs⟩
    | arr ys => exact absurd (sc_ctor_eq h) (by simp [ctorIdx])
    | obj gs => exact absurd (sc_ctor_eq h) (by simp [ctorIdx])
  | harr xs ihm =>
    intro b r s hr hs h
    cases b with
    | null => exact absurd (sc_ctor_eq h) (by simp [ctorIdx])
    | bool bb => exact absurd (sc_ctor_eq h) (by simp [ctorIdx])
    | num j => exact absurd (sc_ctor_eq h) (by simp [ctorIdx])
    | str t => exact absurd (sc_ctor_eq h) (by simp [ctorIdx])
    | arr ys =>
      simp only [stringifyChars, List.cons_append, List.append_assoc,
        List.singleton_append, List.cons.injEq, true_and] at h
      obtain ⟨hx, hrs⟩ := arrChars_pfx xs ihm ys r s h
      exact ⟨by rw [hx], hrs⟩
    | obj gs => exact absurd (sc_ctor_eq h) (by simp [ctorIdx])
  | hobj fs ihm =>
    intro b r s hr hs h
    cases b with
    | null => exact absurd (sc_ctor_eq h) (by simp [ctorIdx])
    | bool bb => exact absurd (sc_ctor_eq h) (by simp [ctorIdx])
    | num j => exact absurd (sc_ctor_eq h) (by simp [ctorIdx])
    | str t => exact absurd (sc_ctor_eq h) (by simp [ctorIdx])
    | arr ys => exact absurd (sc_ctor_eq h) (by simp [ctorIdx])
    | obj gs =>
      simp only [stringifyChars, List.cons_append, List.append_assoc,
        List.singleton_append, List.cons.injEq, true_and] at h
      obtain ⟨hx, hrs⟩ := objChars_pfx fs ihm gs r s h
      exact ⟨by rw [hx], hrs⟩

/-- `JSON.stringify` is injective on JSON values (with integral numbers). -/
theorem stringify_inj {a b : JVal} (h : stringify a = stringify b) : a = b := by
  have h2 : stringifyChars a = stringifyChars b := by
    have := congrArg String.data h
    simpa [stringify] using this
  have h3 : stringifyChars a ++ [] = stringifyChars b ++ [] := by simp [h2]
  exact (sc_pfx a b [] [] trivial trivial h3).1

/-! ### Key and lookup lemmas -/

theorem primEq_eq : ∀ {a b : JVal}, primEq a b = true → a = b := by
  intro a b h
  cases a <;> cases b <;> simp [primEq] at h <;> simp [h]

theorem lookupJ_eq_none_iff {k : String} {fs : List (String × JVal)} :
    lookupJ k fs = none ↔ k ∉ keysOf fs := by
  induction fs with
  | nil => simp [lookupJ, keysOf]
  | cons g gs ih =>
    rcases g with ⟨k2, v⟩
    by_cases hk : k2 = k
    · subst hk
      simp [lookupJ, keysOf]
    · simp [lookupJ, hk, keysOf] at ih ⊢
      rw [ih]
      constructor
      · intro h
        exact ⟨fun he => hk he.symm, h⟩
      · intro h
        exact h.2

theorem lookupJ_isSome_of_mem {k : String} {fs : List (String × JVal)}
    (h : k ∈ keysOf fs) : (lookupJ k fs).isSome := by
  cases hl : lookupJ k fs with
  | none => exact absurd h (lookupJ_eq_none_iff.mp hl)
  | some v => rfl

theorem lookupJ_some_mem_keys {k : String} {fs : List (String × JVal)} {v : JVal}
    (h : lookupJ k fs = some v) : k ∈ keysOf fs := by
  by_contra hk
  rw [← lookupJ_eq_none_iff] at hk
  rw [h] at hk
  cases hk

theorem lookupJ_self_of_nodup {k : String} {v : JVal} :
    ∀ {fs : List (String × JVal)}, (keysOf fs).Nodup → (k, v) ∈ fs →
      lookupJ k fs = some v := by
  intro fs
  induction fs with
  | nil => intro _ h; cases h
  | cons g gs ih =>
    intro hn hm
    rcases g with ⟨k2, w⟩
    simp only [keysOf, List.map_cons, List.nodup_cons] at hn
    rcases List.mem_cons.mp hm with h1 | h2
    · injection h1 with e1 e2
      subst e1
      subst e2
      simp [lookupJ]
    · have hne : k2 ≠ k := by
        intro he
        subst he
        exact hn.1 (by
          have : k2 ∈ keysOf gs := List.mem_map.mpr ⟨(k2, v), h2, rfl⟩
          simpa [keysOf] using this)
      simp only [lookupJ, hne, if_false]
      exact ih hn.2 h2

theorem mem_dedupFirst {x : String} : ∀ {l : List String},
    x ∈ dedupFirst l ↔ x ∈ l := by
  intro l
  induction l using dedupFirst.induct with
  | case1 => simp [dedupFirst]
  | case2 k ks ih =>
    rw [dedupFirst]
    by_cases hx : x = k
    · subst hx
      simp
    · simp only [List.mem_cons, hx, false_or]
      rw [ih]
      simp [List.mem_filter, hx]

theorem nodup_dedupFirst : ∀ (l : List String), (dedupFirst l).Nodup := by
  intro l
  induction l using dedupFirst.induct with
  | case1 => simp [dedupFirst]
  | case2 k ks ih =>
    rw [dedupFirst]
    refine List.nodup_cons.mpr ⟨?_, ih⟩
    intro hk
    have := mem_dedupFirst.mp hk
    simp [List.mem_filter] at this

theorem mem_unionKeys {k : String} {os es : List (String × JVal)} :
    k ∈ unionKeys os es ↔ k ∈ keysOf os ∨ k ∈ keysOf es := by
  rw [unionKeys, mem_dedupFirst, List.mem_append]

theorem mem_insertSorted {x y : String} : ∀ {l : List String},
    x ∈ insertSorted y l ↔ x = y ∨ x ∈ l := by
  intro l
  induction l with
  | nil => simp [insertSorted]
  | cons z zs ih =>
    rw [insertSorted]
    by_cases h : strLe y z = true
    · simp [h]
    · rw [if_neg h]
      simp only [List.mem_cons, ih]
      tauto

theorem mem_sortStrs {x : String} : ∀ {l : List String},
    x ∈ sortStrs l ↔ x ∈ l := by
  intro l
  induction l with
  | nil => simp [sortStrs]
  | cons z zs ih =>
    rw [sortStrs, mem_insertSorted, ih]
    simp

/-! ### Well-formedness lemmas -/

theorem wfJ_obj_nodup {fs : List (String × JVal)}
    (h : wfJ (JVal.obj fs) = true) : (keysOf fs).Nodup := by
  simp only [wfJ, Bool.and_eq_true] at h
  exact by simpa using h.1

theorem wfFields_mem : ∀ {fs : List (String × JVal)} {kv : String × JVal},
    wfFields fs = true → kv ∈ fs → wfJ kv.2 = true := by
  intro fs
  induction fs with
  | nil => intro kv _ h; cases h
  | cons g gs ih =>
    intro kv hw hm
    rcases g with ⟨k2, w⟩
    simp only [wfFields, Bool.and_eq_true] at hw
    rcases List.mem_cons.mp hm with h1 | h2
    · subst h1
      exact hw.1
    · exact ih hw.2 h2

theorem wfJ_obj_mem {fs : List (String × JVal)} {kv : String × JVal}
    (h : wfJ (JVal.obj fs) = true) (hm : kv ∈ fs) : wfJ kv.2 = true := by
  simp only [wfJ, Bool.and_eq_true] at h
  exact wfFields_mem h.2 hm

theorem wfJ_lookup {fs : List (String × JVal)} {k : String} {v : JVal}
    (h : wfJ (JVal.obj fs) = true) (hl : lookupJ k fs = some v) :
    wfJ v = true :=
  wfJ_obj_mem h (lookupJ_mem hl)

theorem wfArr_mem : ∀ {xs : List JVal} {x : JVal},
    wfArr xs = true → x ∈ xs → wfJ x = true := by
  intro xs
  induction xs with
  | nil => intro x _ h; cases h
  | cons y ys ih =>
    intro x hw hm
    simp only [wfArr, Bool.and_eq_true] at hw
    rcases List.mem_cons.mp hm with h1 | h2
    · subst h1
      exact hw.1
    · exact ih hw.2 h2

/-! ### deepDiff characterization lemmas -/

theorem deepDiff_obj_nil {os es : List (String × JVal)}
    (h : diffFields os es (unionKeys os es) = []) :
    deepDiff (JVal.obj os) (JVal.obj es) = none := by
  simp [deepDiff, primEq, h]

theorem deepDiff_obj_cons {os es : List (String × JVal)}
    {f : String × JVal} {ft : List (String × JVal)}
    (h : diffFields os es (unionKeys os es) = f :: ft) :
    deepDiff (JVal.obj os) (JVal.obj es) = some (JVal.obj (f :: ft)) := by
  simp [deepDiff, primEq, h]

theorem deepDiff_arr_arr (xs ys : List JVal) :
    deepDiff (JVal.arr xs) (JVal.arr ys) =
      if stringify (JVal.arr xs) == stringify (JVal.arr ys) then none
      else some (JVal.arr ys) := by
  simp only [deepDiff, primEq]
  rfl

theorem deepDiff_arr_ne {xs ys : List JVal} (h : xs ≠ ys) :
    deepDiff (JVal.arr xs) (JVal.arr ys) = some (JVal.arr ys) := by
  rw [deepDiff_arr_arr]
  have hne : ¬ (stringify (JVal.arr xs) == stringify (JVal.arr ys)) = true := by
    intro hb
    have := stringify_inj (by simpa using hb)
    injection this with h2
    exact h h2
  simp [hne]

theorem diffFields_cons_skip {os es : List (String × JVal)} {k : String}
    {ks : List String} (h : lookupJ k es = none) :
    diffFields os es (k :: ks) = diffFields os es ks := by
  simp only [diffFields]
  split
  · simp
  · rename_i ev he
    rw [h] at he
    cases he

theorem diffFields_cons_new {os es : List (String × JVal)} {k : String}
    {ks : List String} {ev : JVal} (he : lookupJ k es = some ev)
    (ho : lookupJ k os = none) :
    diffFields os es (k :: ks) = (k, ev) :: diffFields os es ks := by
  simp only [diffFields]
  split
  · rename_i h2
    rw [he] at h2
    cases h2
  · rename_i ev2 he2
    rw [he] at he2
    injection he2 with hev
    subst hev
    split
    · simp
    · rename_i ov2 ho2
      rw [ho] at ho2
      cases ho2

theorem diffFields_cons_eq {os es : List (String × JVal)} {k : String}
    {ks : List String} {ev ov : JVal} (he : lookupJ k es = some ev)
    (ho : lookupJ k os = some ov) (hd : deepDiff ov ev = none) :
    diffFields os es (k :: ks) = diffFields os es ks := by
  simp only [diffFields]
  split
  · rename_i h2
    rw [he] at h2
    cases h2
  · rename_i ev2 he2
    rw [he] at he2
    injection he2 with hev
    subst hev
    split
    · rename_i ho2
      rw [ho] at ho2
      cases ho2
    · rename_i ov2 ho2
      rw [ho] at ho2
      injection ho2 with hov
      subst hov
      rw [hd]
      simp

theorem diffFields_cons_ch {os es : List (String × JVal)} {k : String}
    {ks : List String} {ev ov d : JVal} (he : lookupJ k es = some ev)
    (ho : lookupJ k os = some ov) (hd : deepDiff ov ev = some d) :
    diffFields os es (k :: ks) = (k, d) :: diffFields os es ks := by
  simp only [diffFields]
  split
  · rename_i h2
    rw [he] at h2
    cases h2
  · rename_i ev2 he2
    rw [he] at he2
    injection he2 with hev
    subst hev
    split
    · rename_i ho2
      rw [ho] at ho2
      cases ho2
    · rename_i ov2 ho2
      rw [ho] at ho2
      injection ho2 with hov
      subst hov
      rw [hd]
      simp

/-- Every field emitted by the diff loop is keyed by a visited key, carries
the edited value for keys new to the edited side, and otherwise carries a
recursive diff result. -/
theorem diffFields_mem {os es : List (String × JVal)} :
    ∀ {ks : List String} {k : String} {d : JVal},
      (k, d) ∈ diffFields os es ks →
      k ∈ ks ∧ ∃ ev, lookupJ k es = some ev ∧
        ((lookupJ k os = none ∧ d = ev) ∨
         ∃ ov, lookupJ k os = some ov ∧ deepDiff ov ev = some d) := by
  intro ks
  induction ks with
  | nil =>
    intro k d h
    simp [diffFields] at h
  | cons k2 t ih =>
    intro k d h
    cases he2 : lookupJ k2 es with
    | none =>
      rw [diffFields_cons_skip he2] at h
      obtain ⟨h1, h2⟩ := ih h
      exact ⟨List.mem_cons_of_mem _ h1, h2⟩
    | some ev2 =>
      cases ho2 : lookupJ k2 os with
      | none =>
        rw [diffFields_cons_new he2 ho2] at h
        rcases List.mem_cons.mp h with h1 | h1
        · injection h1 with e1 e2
          refine ⟨?_, ev2, ?_, Or.inl ⟨?_, e2⟩⟩
          · rw [e1]
            exact List.mem_cons_self _ _
          · rw [e1]
            exact he2
          · rw [e1]
            exact ho2
        · obtain ⟨g1, g2⟩ := ih h1
          exact ⟨List.mem_cons_of_mem _ g1, g2⟩
      | some ov2 =>
        cases hd2 : deepDiff ov2 ev2 with
        | none =>
          rw [diffFields_cons_eq he2 ho2 hd2] at h
          obtain ⟨h1, h2⟩ := ih h
          exact ⟨List.mem_cons_of_mem _ h1, h2⟩
        | some d2 =>
          rw [diffFields_cons_ch he2 ho2 hd2] at h
          rcases List.mem_cons.mp h with h1 | h1
          · injection h1 with e1 e2
            refine ⟨?_, ev2, ?_, Or.inr ⟨ov2, ?_, ?_⟩⟩
            · rw [e1]
              exact List.mem_cons_self _ _
            · rw [e1]
              exact he2
            · rw [e1]
              exact ho2
            · rw [e2]
              exact hd2
          · obtain ⟨g1, g2⟩ := ih h1
            exact ⟨List.mem_cons_of_mem _ g1, g2⟩

/-- A key present only on the edited side always contributes its edited
value. -/
theorem diffFields_mem_new {os es : List (String × JVal)} {k : String}
    {ev : JVal} (he : lookupJ k es = some ev) (ho : lookupJ k os = none) :
    ∀ {ks : List String}, k ∈ ks → (k, ev) ∈ diffFields os es ks := by
  intro ks
  induction ks with
  | nil => intro h; cases h
  | cons k2 t ih =>
    intro hk
    by_cases hkk : k2 = k
    · subst hkk
      rw [diffFields_cons_new he ho]
      exact List.mem_cons_self _ _
    · have hk2 : k ∈ t := by
        rcases List.mem_cons.mp hk with h1 | h1
        · exact absurd h1.symm hkk
        · exact h1
      cases he2 : lookupJ k2 es with
      | none =>
        rw [diffFields_cons_skip he2]
        exact ih hk2
      | some ev2 =>
        cases ho2 : lookupJ k2 os with
        | none =>
          rw [diffFields_cons_new he2 ho2]
          exact List.mem_cons_of_mem _ (ih hk2)
        | some ov2 =>
          cases hd2 : deepDiff ov2 ev2 with
          | none =>
            rw [diffFields_cons_eq he2 ho2 hd2]
            exact ih hk2
          | some d2 =>
            rw [diffFields_cons_ch he2 ho2 hd2]
            exact List.mem_cons_of_mem _ (ih hk2)

/-- When the whole diff loop produced nothing, every visited key present on
the edited side was present on the original side with an absent recursive
diff. -/
theorem diffFields_nil_lookup {os es : List (String × JVal)} :
    ∀ {ks : List String}, diffFields os es ks = [] →
      ∀ {k : String} {ev : JVal}, k ∈ ks → lookupJ k es = some ev →
        ∃ ov, lookupJ k os = some ov ∧ deepDiff ov ev = none := by
  intro ks
  induction ks with
  | nil => intro _ k ev h; cases h
  | cons k2 t ih =>
    intro hnil k ev hk he
    cases he2 : lookupJ k2 es with
    | none =>
      rw [diffFields_cons_skip he2] at hnil
      rcases List.mem_cons.mp hk with h1 | h1
      · subst h1
        rw [he2] at he
        cases he
      · exact ih hnil h1 he
    | some ev2 =>
      cases ho2 : lookupJ k2 os with
      | none =>
        rw [diffFields_cons_new he2 ho2] at hnil
        cases hnil
      | some ov2 =>
        cases hd2 : deepDiff ov2 ev2 with
        | none =>
          rw [diffFields_cons_eq he2 ho2 hd2] at hnil
          rcases List.mem_cons.mp hk with h1 | h1
          · subst h1
            rw [he2] at he
            injection he with hee
            subst hee
            exact ⟨ov2, ho2, hd2⟩
          · exact ih hnil h1 he
        | some d2 =>
          rw [diffFields_cons_ch he2 ho2 hd2] at hnil
          cases hnil

theorem deepDiff_self : ∀ (v : JVal), deepDiff v v = none := by
  intro v
  induction v using jval_ind with
  | hnull => simp [deepDiff, primEq]
  | hbool b => simp [deepDiff, primEq]
  | hnum n => simp [deepDiff, primEq]
  | hstr s => simp [deepDiff, primEq]
  | harr xs _ => simp [deepDiff, primEq]
  | hobj fs ih =>
    have hfields : ∀ ks, diffFields fs fs ks = [] := by
      intro ks
      induction ks with
      | nil => simp [diffFields]
      | cons k t iht =>
        cases hk : lookupJ k fs with
        | none => rw [diffFields_cons_skip hk, iht]
        | some ev =>
          have hd := ih (k, ev) (lookupJ_mem hk)
          simp only at hd
          rw [diffFields_cons_eq hk hk hd, iht]
    exact deepDiff_obj_nil (hfields _)

theorem isObjB_shape {v : JVal} (h : isObjB v = true) : ∃ fs, v = JVal.obj fs := by
  cases v <;> first
    | exact ⟨_, rfl⟩
    | simp [isObjB] at h

theorem isArrB_shape {v : JVal} (h : isArrB v = true) : ∃ xs, v = JVal.arr xs := by
  cases v <;> first
    | exact ⟨_, rfl⟩
    | simp [isArrB] at h

/-- Outside the two-objects and two-arrays configurations, a changed value
is replaced atomically by the whole edited value. -/
theorem deepDiff_catchall {o e : JVal} (hp2 : primEq o e = false)
    (hobj : ¬(isObjB o = true ∧ isObjB e = true))
    (harr : ¬(isArrB o = true ∧ isArrB e = true)) :
    deepDiff o e = some e := by
  cases o <;> cases e <;> simp_all [deepDiff, isObjB, isArrB]

/-- Any produced diff is either the whole edited value (atomic replace) or,
for two objects, the object of the emitted fields. -/
theorem deepDiff_some_shape {o e p : JVal} (hd : deepDiff o e = some p) :
    p = e ∨ ∃ os es, o = JVal.obj os ∧ e = JVal.obj es ∧
      p = JVal.obj (diffFields os es (unionKeys os es)) := by
  have hp2 : primEq o e = false := by
    cases hpe : primEq o e
    · rfl
    · rw [show deepDiff o e = none from by rw [deepDiff.eq_def, hpe]; simp] at hd
      cases hd
  by_cases hobj : isObjB o = true ∧ isObjB e = true
  · obtain ⟨os, ho⟩ := isObjB_shape hobj.1
    obtain ⟨es, he⟩ := isObjB_shape hobj.2
    subst ho
    subst he
    right
    refine ⟨os, es, rfl, rfl, ?_⟩
    cases hf : diffFields os es (unionKeys os es) with
    | nil =>
      rw [deepDiff_obj_nil hf] at hd
      cases hd
    | cons f ft =>
      rw [deepDiff_obj_cons hf] at hd
      injection hd with h
      exact h.symm
  · by_cases harr : isArrB o = true ∧ isArrB e = true
    · obtain ⟨xs, ho⟩ := isArrB_shape harr.1
      obtain ⟨ys, he⟩ := isArrB_shape harr.2
      subst ho
      subst he
      left
      rw [deepDiff_arr_arr] at hd
      split at hd
      · cases hd
      · injection hd with h
        exact h.symm
    · left
      rw [deepDiff_catchall hp2 hobj harr] at hd
      injection hd with h
      exact h.symm

theorem lookupJ_removeKey {j k : String} : ∀ {fs : List (String × JVal)},
    lookupJ j (removeKey k fs) = if j = k then none else lookupJ j fs := by
  intro fs
  induction fs with
  | nil => simp [removeKey, lookupJ]
  | cons g gs ih =>
    rcases g with ⟨k2, v⟩
    by_cases h2 : k2 = k
    · subst h2
      have hdrop : removeKey k2 ((k2, v) :: gs) = removeKey k2 gs := by
        simp [removeKey]
      rw [hdrop, ih]
      by_cases hj : j = k2
      · simp [hj]
      · rw [if_neg hj, if_neg hj]
        simp only [lookupJ]
        rw [if_neg (fun hh => hj hh.symm)]
    · have hkeep : removeKey k ((k2, v) :: gs) = (k2, v) :: removeKey k gs := by
        simp [removeKey, h2]
      rw [hkeep]
      by_cases hj : k2 = j
      · subst hj
        simp [lookupJ, h2]
      · simp only [lookupJ, hj, if_false]
        exact ih

theorem coveredFields_of : ∀ {ps es : List (String × JVal)},
    (∀ kv ∈ ps, ∃ w, lookupJ kv.1 es = some w ∧ coveredBy kv.2 w = true) →
    coveredFields ps es = true := by
  intro ps
  induction ps with
  | nil => intro _ _; simp [coveredFields]
  | cons g t ih =>
    intro es h
    rcases g with ⟨k, v⟩
    obtain ⟨w, hw, hc⟩ := h (k, v) (List.mem_cons_self _ _)
    simp only at hw hc
    simp only [coveredFields, Bool.and_eq_true]
    constructor
    · split
      · rename_i w2 hw2
        rw [hw] at hw2
        injection hw2 with hww
        rw [← hww]
        exact hc
      · rename_i hw2
        rw [hw] at hw2
        cases hw2
    · exact ih (fun kv hkv => h kv (List.mem_cons_of_mem _ hkv))

theorem coveredBy_refl : ∀ {v : JVal}, wfJ v = true → coveredBy v v = true := by
  intro v
  induction v using jval_ind with
  | hnull => intro _; simp [coveredBy, jbeq]
  | hbool b => intro _; simp [coveredBy, jbeq]
  | hnum n => intro _; simp [coveredBy, jbeq]
  | hstr s => intro _; simp [coveredBy, jbeq]
  | harr xs _ => intro _; simp [coveredBy, jbeq_refl]
  | hobj fs ih =>
    intro hw
    simp only [coveredBy]
    apply coveredFields_of
    intro kv hkv
    exact ⟨kv.2, lookupJ_self_of_nodup (wfJ_obj_nodup hw) (by
        rcases kv with ⟨k, v⟩
        exact hkv),
      ih kv hkv (wfJ_obj_mem hw hkv)⟩

/-! ### Claim theorems -/

/-- C1: removing a key from an object is invisible to `deepDiff` — the diff
of an object against the same object with one key removed is absent; and in
general every key occurring in a computed patch, at every nesting level,
exists on the edited side at the corresponding position (`coveredBy`), so a
patch never encodes a deletion. -/
theorem claim_C1 :
    (∀ (fs : List (String × JVal)) (k : String),
        deepDiff (JVal.obj fs) (JVal.obj (removeKey k fs)) = none) ∧
    (∀ (o e p : JVal), wfJ e = true → deepDiff o e = some p →
        coveredBy p e = true) := by
  constructor
  · intro fs k
    apply deepDiff_obj_nil
    have hall : ∀ ks, diffFields fs (removeKey k fs) ks = [] := by
      intro ks
      induction ks with
      | nil => simp [diffFields]
      | cons j t ih =>
        by_cases hj : j = k
        · have hn : lookupJ j (removeKey k fs) = none := by
            rw [lookupJ_removeKey, if_pos hj]
          rw [diffFields_cons_skip hn, ih]
        · have he : lookupJ j (removeKey k fs) = lookupJ j fs := by
            rw [lookupJ_removeKey, if_neg hj]
          cases hl : lookupJ j fs with
          | none => rw [diffFields_cons_skip (he.trans hl), ih]
          | some v =>
            rw [diffFields_cons_eq (he.trans hl) hl (deepDiff_self v), ih]
    exact hall _
  · have main : ∀ (e o p : JVal), wfJ e = true → deepDiff o e = some p →
        coveredBy p e = true := by
      intro e
      induction e using jval_ind with
      | hobj es ihm =>
        intro o p hw hd
        rcases deepDiff_some_shape hd with h1 | ⟨os2, es2, ho2, he2, hp2⟩
        · rw [h1]
          exact coveredBy_refl hw
        · injection he2 with hee
          subst hee
          rw [hp2]
          simp only [coveredBy]
          apply coveredFields_of
          intro kv hkv
          rcases kv with ⟨k, d⟩
          obtain ⟨hk, ev, hev, hcase⟩ := diffFields_mem hkv
          refine ⟨ev, hev, ?_⟩
          rcases hcase with ⟨-, hde⟩ | ⟨ov, hov, hdd⟩
          · simp only
            rw [hde]
            exact coveredBy_refl (wfJ_lookup hw hev)
          · exact ihm (k, ev) (lookupJ_mem hev) ov d (wfJ_lookup hw hev) hdd
      | hnull =>
        intro o p hw hd
        rcases deepDiff_some_shape hd with h1 | ⟨os2, es2, ho2, he2, hp2⟩
        · rw [h1]; simp [coveredBy, jbeq]
        · cases he2
      | hbool b =>
        intro o p hw hd
        rcases deepDiff_some_shape hd with h1 | ⟨os2, es2, ho2, he2, hp2⟩
        · rw [h1]; simp [coveredBy, jbeq]
        · cases he2
      | hnum n =>
        intro o p hw hd
        rcases deepDiff_some_shape hd with h1 | ⟨os2, es2, ho2, he2, hp2⟩
        · rw [h1]; simp [coveredBy, jbeq]
        · cases he2
      | hstr s =>
        intro o p hw hd
        rcases deepDiff_some_shape hd with h1 | ⟨os2, es2, ho2, he2, hp2⟩
        · rw [h1]; simp [coveredBy, jbeq]
        · cases he2
      | harr xs _ =>
        intro o p hw hd
        rcases deepDiff_some_shape hd with h1 | ⟨os2, es2, ho2, he2, hp2⟩
        · rw [h1]; simp [coveredBy, jbeq_refl]
        · cases he2
    intro o e p hw hd
    exact main e o p hw hd

/-- Witness for C1 at concrete inputs: removing `b` from `{a:1, b:2}` gives
an absent diff, and the patch computed from `{name:"A"}` to `{name:"B"}` is
covered by the edited object. -/
theorem claim_C1_witness :
    deepDiff (JVal.obj [("a", JVal.num 1), ("b", JVal.num 2)])
        (JVal.obj (removeKey "b" [("a", JVal.num 1), ("b", JVal.num 2)])) = none ∧
    coveredBy (JVal.obj [("name", JVal.str "B")])
        (JVal.obj [("name", JVal.str "B")]) = true := by
  constructor
  · exact claim_C1.1 [("a", JVal.num 1), ("b", JVal.num 2)] "b"
  · refine claim_C1.2 (JVal.obj [("name", JVal.str "A")])
      (JVal.obj [("name", JVal.str "B")]) (JVal.obj [("name", JVal.str "B")])
      (by simp [wfJ, wfFields, keysOf]) ?_
    simp [deepDiff, primEq, diffFields, unionKeys, keysOf, dedupFirst, lookupJ]

/-- C3: the diff of two structurally identical values (in the value model,
two reference-distinct copies — e.g. a value and the parse of its
serialization — are the same value) is the absent marker; and at two object
nodes the diff is never the empty mapping: when no key changed, absence
propagates up instead. -/
theorem claim_C3 :
    (∀ (v : JVal), deepDiff v v = none) ∧
    (∀ (os es : List (String × JVal)) (d : JVal),
        deepDiff (JVal.obj os) (JVal.obj es) = some d → d ≠ JVal.obj []) := by
  refine ⟨deepDiff_self, ?_⟩
  intro os es d hd hne
  cases hf : diffFields os es (unionKeys os es) with
  | nil =>
    rw [deepDiff_obj_nil hf] at hd
    cases hd
  | cons f ft =>
    rw [deepDiff_obj_cons hf] at hd
    injection hd with h
    rw [hne] at h
    cases h

/-- Witness for C3: the nonempty diff of `{a:1}` against `{a:2}` is not the
empty mapping. -/
theorem claim_C3_witness :
    JVal.obj [("a", JVal.num 2)] ≠ JVal.obj [] := by
  apply claim_C3.2 [("a", JVal.num 1)] [("a", JVal.num 2)]
  simp [deepDiff, primEq, diffFields, unionKeys, keysOf, dedupFirst, lookupJ]

/-! ### stripReadOnly and denied-key lemmas -/

theorem stripArr_eq_map : ∀ (xs : List JVal),
    stripArr xs = xs.map stripReadOnly := by
  intro xs
  induction xs with
  | nil => simp [stripArr]
  | cons x t ih => simp [stripArr, ih]

theorem noDeniedFields_mem : ∀ {fs : List (String × JVal)} {kv : String × JVal},
    noDeniedFields fs = true → kv ∈ fs →
      denyKeys.contains kv.1 = false ∧ noDenied kv.2 = true := by
  intro fs
  induction fs with
  | nil => intro kv _ h; cases h
  | cons g t ih =>
    intro kv hf hm
    rcases g with ⟨k, v⟩
    simp only [noDeniedFields, Bool.and_eq_true, Bool.not_eq_true'] at hf
    rcases List.mem_cons.mp hm with h1 | h1
    · subst h1
      exact ⟨hf.1.1, hf.1.2⟩
    · exact ih hf.2 h1

theorem noDeniedFields_of : ∀ {fs : List (String × JVal)},
    (∀ kv ∈ fs, denyKeys.contains kv.1 = false ∧ noDenied kv.2 = true) →
    noDeniedFields fs = true := by
  intro fs
  induction fs with
  | nil => intro _; simp [noDeniedFields]
  | cons g t ih =>
    intro h
    rcases g with ⟨k, v⟩
    obtain ⟨h1, h2⟩ := h (k, v) (List.mem_cons_self _ _)
    simp only [noDeniedFields, Bool.and_eq_true, Bool.not_eq_true']
    exact ⟨⟨h1, h2⟩, ih (fun kv hkv => h kv (List.mem_cons_of_mem _ hkv))⟩

theorem noDenied_strip : ∀ (v : JVal), noDenied (stripReadOnly v) = true := by
  intro v
  induction v using jval_ind with
  | hnull => simp [stripReadOnly, noDenied]
  | hbool b => simp [stripReadOnly, noDenied]
  | hnum n => simp [stripReadOnly, noDenied]
  | hstr s => simp [stripReadOnly, noDenied]
  | harr xs ih =>
    simp only [stripReadOnly, noDenied]
    induction xs with
    | nil => simp [stripArr, noDeniedArr]
    | cons x t iht =>
      simp only [stripArr, noDeniedArr, Bool.and_eq_true]
      exact ⟨ih x (List.mem_cons_self _ _),
        iht (fun y hy => ih y (List.mem_cons_of_mem _ hy))⟩
  | hobj fs ih =>
    simp only [stripReadOnly, noDenied]
    induction fs with
    | nil => simp [stripFields, noDeniedFields]
    | cons g t iht =>
      rcases g with ⟨k, v⟩
      by_cases hk : denyKeys.contains k = true
      · rw [stripFields, if_pos hk]
        exact iht (fun kv hkv => ih kv (List.mem_cons_of_mem _ hkv))
      · rw [stripFields, if_neg hk]
        simp only [noDeniedFields, Bool.and_eq_true, Bool.not_eq_true']
        exact ⟨⟨by simpa using hk, ih (k, v) (List.mem_cons_self _ _)⟩,
          iht (fun kv hkv => ih kv (List.mem_cons_of_mem _ hkv))⟩

theorem strip_of_noDenied : ∀ {v : JVal}, noDenied v = true →
    stripReadOnly v = v := by
  intro v
  induction v using jval_ind with
  | hnull => intro _; simp [stripReadOnly]
  | hbool b => intro _; simp [stripReadOnly]
  | hnum n => intro _; simp [stripReadOnly]
  | hstr s => intro _; simp [stripReadOnly]
  | harr xs ih =>
    intro hn
    simp only [noDenied] at hn
    simp only [stripReadOnly, JVal.arr.injEq]
    induction xs with
    | nil => simp [stripArr]
    | cons x t iht =>
      simp only [noDeniedArr, Bool.and_eq_true] at hn
      simp only [stripArr, List.cons.injEq]
      exact ⟨ih x (List.mem_cons_self _ _) hn.1,
        iht (fun y hy => ih y (List.mem_cons_of_mem _ hy)) hn.2⟩
  | hobj fs ih =>
    intro hn
    simp only [noDenied] at hn
    simp only [stripReadOnly, JVal.obj.injEq]
    induction fs with
    | nil => simp [stripFields]
    | cons g t iht =>
      rcases g with ⟨k, v⟩
      simp only [noDeniedFields, Bool.and_eq_true, Bool.not_eq_true'] at hn
      have hnk : ¬ denyKeys.contains k = true := by
        rw [hn.1.1]
        simp
      rw [stripFields, if_neg hnk]
      simp only [List.cons.injEq]
      exact ⟨by rw [ih (k, v) (List.mem_cons_self _ _) hn.1.2],
        iht (fun kv hkv => ih kv (List.mem_cons_of_mem _ hkv)) hn.2⟩

/-- A diff computed against a denied-free edited value is denied-free. -/
theorem noDenied_diff : ∀ (e o p : JVal), noDenied e = true →
    deepDiff o e = some p → noDenied p = true := by
  intro e
  induction e using jval_ind with
  | hobj es ihm =>
    intro o p hn hd
    rcases deepDiff_some_shape hd with h1 | ⟨os2, es2, ho2, he2, hp2⟩
    · rw [h1]; exact hn
    · injection he2 with hee
      subst hee
      rw [hp2]
      simp only [noDenied] at hn ⊢
      apply noDeniedFields_of
      intro kv hkv
      rcases kv with ⟨k, d⟩
      obtain ⟨hk, ev, hev, hcase⟩ := diffFields_mem hkv
      have hm := noDeniedFields_mem hn (lookupJ_mem hev)
      simp only at hm
      refine ⟨hm.1, ?_⟩
      rcases hcase with ⟨-, hde⟩ | ⟨ov, hov, hdd⟩
      · simp only
        rw [hde]
        exact hm.2
      · exact ihm (k, ev) (lookupJ_mem hev) ov d hm.2 hdd
  | hnull =>
    intro o p hn hd
    rcases deepDiff_some_shape hd with h1 | ⟨os2, es2, ho2, he2, hp2⟩
    · rw [h1]; exact hn
    · cases he2
  | hbool b =>
    intro o p hn hd
    rcases deepDiff_some_shape hd with h1 | ⟨os2, es2, ho2, he2, hp2⟩
    · rw [h1]; exact hn
    · cases he2
  | hnum n =>
    intro o p hn hd
    rcases deepDiff_some_shape hd with h1 | ⟨os2, es2, ho2, he2, hp2⟩
    · rw [h1]; exact hn
    · cases he2
  | hstr s =>
    intro o p hn hd
    rcases deepDiff_some_shape hd with h1 | ⟨os2, es2, ho2, he2, hp2⟩
    · rw [h1]; exact hn
    · cases he2
  | harr xs _ =>
    intro o p hn hd
    rcases deepDiff_some_shape hd with h1 | ⟨os2, es2, ho2, he2, hp2⟩
    · rw [h1]; exact hn
    · cases he2

/-- C7: `stripReadOnly` is idempotent; its output carries none of the seven
denied keys at any nesting level; it changes nothing when no denied key is
present (so it removes exactly the denied keys); it maps arrays element-wise
preserving order and passes non-object, non-list values through unchanged. -/
theorem claim_C7 :
    (∀ (v : JVal), stripReadOnly (stripReadOnly v) = stripReadOnly v) ∧
    (∀ (v : JVal), noDenied (stripReadOnly v) = true) ∧
    (∀ (v : JVal), noDenied v = true → stripReadOnly v = v) ∧
    (∀ (xs : List JVal),
      stripReadOnly (JVal.arr xs) = JVal.arr (xs.map stripReadOnly)) ∧
    stripReadOnly JVal.null = JVal.null ∧
    (∀ (b : Bool), stripReadOnly (JVal.bool b) = JVal.bool b) ∧
    (∀ (n : Int), stripReadOnly (JVal.num n) = JVal.num n) ∧
    (∀ (s : String), stripReadOnly (JVal.str s) = JVal.str s) := by
  refine ⟨fun v => strip_of_noDenied (noDenied_strip v), noDenied_strip,
    fun v => strip_of_noDenied, ?_, rfl, fun b => rfl, fun n => rfl,
    fun s => rfl⟩
  intro xs
  simp [stripReadOnly, stripArr_eq_map]

/-- Witness for C7: stripping a denied-free object changes nothing. -/
theorem claim_C7_witness :
    stripReadOnly (JVal.obj [("name", JVal.str "A")]) =
      JVal.obj [("name", JVal.str "A")] :=
  claim_C7.2.2.1 _ (by simp [noDenied, noDeniedFields, denyKeys])

/-- C2: the commit path strips both sides before diffing, so no denied key
survives anywhere in the stripped values or in the computed patch; on the
claim's concrete pair the patch is exactly `{name:"B"}` and the rendered
preview shows only the `name` change; and the payload handed to the PATCH
request is exactly the diff of the filtered pair, defaulted to the empty
object, with nothing added. -/
theorem claim_C2 :
    (∀ (v : JVal), noDenied (stripReadOnly v) = true) ∧
    (∀ (o e : JVal), noDenied (computePatch o e) = true) ∧
    computePatch (JVal.obj [("queue_id", JVal.str "q1"), ("name", JVal.str "A")])
        (JVal.obj [("queue_id", JVal.str "q9"), ("name", JVal.str "B")]) =
      JVal.obj [("name", JVal.str "B")] ∧
    commitPreviewLines
        (JVal.obj [("queue_id", JVal.str "q1"), ("name", JVal.str "A")])
        (JVal.obj [("queue_id", JVal.str "q9"), ("name", JVal.str "B")]) =
      [⟨DKind.remove, "- name: \"A\""⟩, ⟨DKind.add, "+ name: \"B\""⟩] ∧
    (∀ (o e : JVal), computePatch o e =
      (deepDiff (stripReadOnly o) (stripReadOnly e)).getD (JVal.obj [])) := by
  refine ⟨noDenied_strip, ?_, ?_, ?_, fun o e => rfl⟩
  · intro o e
    rw [computePatch]
    cases hd : deepDiff (stripReadOnly o) (stripReadOnly e) with
    | none => simp [noDenied, noDeniedFields]
    | some p =>
      simp only [Option.getD_some]
      exact noDenied_diff (stripReadOnly e) (stripReadOnly o) p
        (noDenied_strip e) hd
  · simp [computePatch, stripReadOnly, stripFields, denyKeys, deepDiff,
      primEq, diffFields, unionKeys, keysOf, dedupFirst, lookupJ]
  · simp [commitPreviewLines, collectDiffLines, collectFields, stripReadOnly,
      stripFields, denyKeys, sortedUnionKeys, sortStrs, insertSorted, strLe,
      charListLe, unionKeys, keysOf, dedupFirst, lookupJ, primEq, isArrB,
      pathJoin, showPath, fmtJ, stringify, stringifyChars, encodeStr, escBody,
      escapeChar]

/-- C5: contrary to the claim, the worker's `handleApi` has no route for
`GET /api/queues/:id` — the id regex is guarded by `method === "PATCH"`
only, so a GET for a single resource falls through to the `api_not_found`
404 instead of returning the detail envelope the editor needs to reseed its
baseline.  The same path does dispatch under PATCH, and the collection GET
is routed, showing the fallthrough is specific to the missing detail
route. -/
theorem claim_C5 :
    handleApi "GET" "/api/queues/q123" = ApiRoute.notFound ∧
    handleApi "PATCH" "/api/queues/q123" = ApiRoute.patchQueue "q123" ∧
    handleApi "GET" "/api/queues" = ApiRoute.listQueues ∧
    handleApi "DELETE" "/api/queues/q123" = ApiRoute.notFound := by
  refine ⟨by decide, by decide, by decide, by decide⟩

/-- C8: the delete request is issued exactly when the trimmed, uppercased
confirmation text equals `DELETE`; the claim's concrete inputs behave as
stated and any other input blocks with the inline error. -/
theorem claim_C8 :
    (∀ (s : String), confirmDelete s = DeleteOutcome.requested ↔
        jsUpper (jsTrim s) = "DELETE") ∧
    confirmDelete "delete" = DeleteOutcome.requested ∧
    confirmDelete " DELETE " = DeleteOutcome.requested ∧
    confirmDelete "Delete" = DeleteOutcome.requested ∧
    confirmDelete "DEL" =
      DeleteOutcome.blocked "To delete, type DELETE in the confirmation box." := by
  refine ⟨?_, by decide, by decide, by decide, by decide⟩
  intro s
  rw [confirmDelete]
  by_cases h : jsUpper (jsTrim s) = "DELETE"
  · simp [h]
  · simp [h]

/-! ### Renderer block lemmas -/

theorem collectDiffLines_obj (as bs : List (String × JVal)) (path : String) :
    collectDiffLines (JVal.obj as) (JVal.obj bs) path =
      collectFields as bs path (sortedUnionKeys as bs) := by
  simp [collectDiffLines, primEq, isArrB]

theorem collectFields_cons_rm {as bs : List (String × JVal)} {path k : String}
    {ks : List String} {v : JVal} (hb : lookupJ k bs = none)
    (ha : lookupJ k as = some v) :
    collectFields as bs path (k :: ks) =
      ⟨DKind.remove, "- " ++ pathJoin path k ++ ": " ++ fmtJ v⟩ ::
        collectFields as bs path ks := by
  simp only [collectFields]
  split
  · split
    · rename_i ha2
      rw [ha] at ha2
      injection ha2 with h
      rw [h]
      simp
    · rename_i ha2
      rw [ha] at ha2
      cases ha2
  · rename_i bv hb2
    rw [hb] at hb2
    cases hb2

theorem collectFields_cons_add {as bs : List (String × JVal)} {path k : String}
    {ks : List String} {bv : JVal} (hb : lookupJ k bs = some bv)
    (ha : lookupJ k as = none) :
    collectFields as bs path (k :: ks) =
      ⟨DKind.add, "+ " ++ pathJoin path k ++ ": " ++ fmtJ bv⟩ ::
        collectFields as bs path ks := by
  simp only [collectFields]
  split
  · rename_i hb2
    rw [hb] at hb2
    cases hb2
  · rename_i bv2 hb2
    rw [hb] at hb2
    injection hb2 with h
    subst h
    split
    · simp
    · rename_i av ha2
      rw [ha] at ha2
      cases ha2

theorem collectFields_cons_rec {as bs : List (String × JVal)} {path k : String}
    {ks : List String} {av bv : JVal} (hb : lookupJ k bs = some bv)
    (ha : lookupJ k as = some av) :
    collectFields as bs path (k :: ks) =
      collectDiffLines av bv (pathJoin path k) ++ collectFields as bs path ks := by
  simp only [collectFields]
  split
  · rename_i hb2
    rw [hb] at hb2
    cases hb2
  · rename_i bv2 hb2
    rw [hb] at hb2
    injection hb2 with h
    subst h
    split
    · rename_i ha2
      rw [ha] at ha2
      cases ha2
    · rename_i av2 ha2
      rw [ha] at ha2
      injection ha2 with h2
      subst h2
      rfl

theorem mem_collectFields {as bs : List (String × JVal)} {path k : String}
    {v : JVal} (ha : lookupJ k as = some v) (hb : lookupJ k bs = none) :
    ∀ {ks : List String}, k ∈ ks →
      (⟨DKind.remove, "- " ++ pathJoin path k ++ ": " ++ fmtJ v⟩ : DiffLine) ∈
        collectFields as bs path ks := by
  intro ks
  induction ks with
  | nil => intro h; cases h
  | cons k2 t ih =>
    intro hk
    by_cases hkk : k2 = k
    · subst hkk
      rw [collectFields_cons_rm hb ha]
      exact List.mem_cons_self _ _
    · have hk2 : k ∈ t := by
        rcases List.mem_cons.mp hk with h1 | h1
        · exact absurd h1.symm hkk
        · exact h1
      cases hb2 : lookupJ k2 bs with
      | none =>
        cases ha2 : lookupJ k2 as with
        | none =>
          simp only [collectFields]
          refine List.mem_append.mpr (Or.inr ?_)
          exact ih hk2
        | some av2 =>
          rw [collectFields_cons_rm hb2 ha2]
          exact List.mem_cons_of_mem _ (ih hk2)
      | some bv2 =>
        cases ha2 : lookupJ k2 as with
        | none =>
          rw [collectFields_cons_add hb2 ha2]
          exact List.mem_cons_of_mem _ (ih hk2)
        | some av2 =>
          rw [collectFields_cons_rec hb2 ha2]
          exact List.mem_append.mpr (Or.inr (ih hk2))

/-- C6: a key present in the original and missing from the edited object
produces a removal line in the rendered diff (the one place removals
surface), while the patch computed by `deepDiff` on the same pair carries
no trace of it; on the claim's concrete pair the rendered output is exactly
the removal line for `b` and the diff is absent. -/
theorem claim_C6 :
    (∀ (as bs : List (String × JVal)) (k : String) (v : JVal),
        lookupJ k as = some v → lookupJ k bs = none →
        (⟨DKind.remove, "- " ++ k ++ ": " ++ fmtJ v⟩ : DiffLine) ∈
          collectDiffLines (JVal.obj as) (JVal.obj bs) "") ∧
    collectDiffLines (JVal.obj [("a", JVal.num 1), ("b", JVal.num 2)])
        (JVal.obj [("a", JVal.num 1)]) "" = [⟨DKind.remove, "- b: 2"⟩] ∧
    deepDiff (JVal.obj [("a", JVal.num 1), ("b", JVal.num 2)])
        (JVal.obj [("a", JVal.num 1)]) = none := by
  refine ⟨?_, ?_, ?_⟩
  · intro as bs k v ha hb
    rw [collectDiffLines_obj]
    have hk : k ∈ sortedUnionKeys as bs :=
      mem_sortStrs.mpr (mem_unionKeys.mpr (Or.inl (lookupJ_some_mem_keys ha)))
    have := @mem_collectFields _ _ "" _ _ ha hb _ hk
    simpa [pathJoin] using this
  · simp only [collectDiffLines_obj]
    simp [collectFields, sortedUnionKeys, sortStrs,
      insertSorted, strLe, charListLe, unionKeys, keysOf, dedupFirst, lookupJ,
      primEq, isArrB, pathJoin, showPath, fmtJ, stringify, stringifyChars,
      intChars, natChars, digitChar, collectDiffLines]
    decide
  · simp [deepDiff, primEq, diffFields, unionKeys, keysOf, dedupFirst, lookupJ]

/-- Witness for C6: the removal line for `b` is a member of the rendered
output on the concrete pair. -/
theorem claim_C6_witness :
    (⟨DKind.remove, "- b: 2"⟩ : DiffLine) ∈
      collectDiffLines (JVal.obj [("a", JVal.num 1), ("b", JVal.num 2)])
        (JVal.obj [("a", JVal.num 1)]) "" := by
  have := claim_C6.1 [("a", JVal.num 1), ("b", JVal.num 2)] [("a", JVal.num 1)]
    "b" (JVal.num 2) (by simp [lookupJ]) (by simp [lookupJ])
  simpa [fmtJ, stringify, stringifyChars, intChars, natChars, digitChar]
    using this

/-- C4 counterexample: the two singleton lists hold structurally identical
mappings whose key insertion order differs; under the claim's comparison
(`jvalEquiv`: deep, element-order-sensitive, key-insertion-order-blind)
they are equal lists, yet `deepDiff` — which compares serializations, and
serializations expose insertion order — returns the entire edited list
rather than the absent marker. -/
theorem claim_C4_counterexample :
    jvalEquiv (JVal.arr [JVal.obj [("a", JVal.num 1), ("b", JVal.num 2)]])
        (JVal.arr [JVal.obj [("b", JVal.num 2), ("a", JVal.num 1)]]) = true ∧
    deepDiff (JVal.arr [JVal.obj [("a", JVal.num 1), ("b", JVal.num 2)]])
        (JVal.arr [JVal.obj [("b", JVal.num 2), ("a", JVal.num 1)]]) =
      some (JVal.arr [JVal.obj [("b", JVal.num 2), ("a", JVal.num 1)]]) := by
  constructor
  · simp [jvalEquiv, equivArr, equivFields, keysIncluded, lookupJ, primEq]
  · simp [deepDiff, primEq, stringify, stringifyChars, arrChars, objChars,
      encodeStr, escBody, escapeChar, intChars, natChars, digitChar]

theorem primEq_arr_false {a b : JVal}
    (h : isArrB a = true ∨ isArrB b = true) : primEq a b = false := by
  rcases h with h | h
  · obtain ⟨xs, rfl⟩ := isArrB_shape h
    cases b <;> rfl
  · obtain ⟨ys, rfl⟩ := isArrB_shape h
    cases a <;> rfl

/-- C4 amended: whenever at least one side is a list, the result is absent
exactly when the two sides are equal values — under the comparison the code
actually performs (serialization equality), which is deep,
element-order-sensitive AND mapping-key-insertion-order-sensitive — and
otherwise the result is the entire edited value; the claim's two concrete
examples hold as stated. -/
theorem claim_C4_amended :
    (∀ (a b : JVal), isArrB a = true ∨ isArrB b = true →
      (deepDiff a b = none ↔ a = b) ∧ (a ≠ b → deepDiff a b = some b)) ∧
    deepDiff (JVal.obj [("a", JVal.arr [JVal.num 1, JVal.num 2, JVal.num 3])])
        (JVal.obj [("a", JVal.arr [JVal.num 1, JVal.num 2])]) =
      some (JVal.obj [("a", JVal.arr [JVal.num 1, JVal.num 2])]) ∧
    deepDiff (JVal.obj [("a", JVal.arr [JVal.num 1, JVal.num 2, JVal.num 3])])
        (JVal.obj [("a", JVal.arr [JVal.num 3, JVal.num 2, JVal.num 1])]) =
      some (JVal.obj [("a", JVal.arr [JVal.num 3, JVal.num 2, JVal.num 1])]) := by
  refine ⟨?_, ?_, ?_⟩
  · intro a b h
    by_cases haa : isArrB a = true ∧ isArrB b = true
    · obtain ⟨xs, rfl⟩ := isArrB_shape haa.1
      obtain ⟨ys, rfl⟩ := isArrB_shape haa.2
      constructor
      · constructor
        · intro hn
          rw [deepDiff_arr_arr] at hn
          split at hn
          · rename_i heq
            have := stringify_inj (by simpa using heq)
            exact this
          · cases hn
        · intro he
          rw [he]
          exact deepDiff_self _
      · intro hne
        exact deepDiff_arr_ne (fun he => hne (by rw [he]))
    · have hne : a ≠ b := by
        intro he
        subst he
        rcases h with h | h <;> exact haa ⟨h, h⟩
      have hobj : ¬(isObjB a = true ∧ isObjB b = true) := by
        rcases h with h | h
        · obtain ⟨xs, rfl⟩ := isArrB_shape h
          intro hc
          simp [isObjB] at hc
        · obtain ⟨ys, rfl⟩ := isArrB_shape h
          intro hc
          simp [isObjB] at hc
      have hsome := deepDiff_catchall (primEq_arr_false h) hobj haa
      refine ⟨⟨fun hn => ?_, fun he => absurd he hne⟩, fun _ => hsome⟩
      rw [hsome] at hn
      cases hn
  · simp [deepDiff, primEq, diffFields, unionKeys, keysOf, dedupFirst,
      lookupJ, stringify, stringifyChars, arrChars, intChars, natChars,
      digitChar]
  · simp [deepDiff, primEq, diffFields, unionKeys, keysOf, dedupFirst,
      lookupJ, stringify, stringifyChars, arrChars, intChars, natChars,
      digitChar]

/-- Witness for the amended C4 at a concrete list pair. -/
theorem claim_C4_witness :
    deepDiff (JVal.arr [JVal.num 1, JVal.num 2, JVal.num 3])
        (JVal.arr [JVal.num 1, JVal.num 2]) =
      some (JVal.arr [JVal.num 1, JVal.num 2]) :=
  (claim_C4_amended.1 (JVal.arr [JVal.num 1, JVal.num 2, JVal.num 3])
    (JVal.arr [JVal.num 1, JVal.num 2]) (Or.inl rfl)).2 (by simp)

/-! ### Renderer coverage of every change -/

theorem collectDiffLines_arrcase {a b : JVal} {path : String}
    (hp : primEq a b = false) (ha : (isArrB a || isArrB b) = true) :
    collectDiffLines a b path =
      if stringify a == stringify b then []
      else
        [⟨DKind.remove, "- " ++ showPath path ++ ": " ++ stringify a⟩,
         ⟨DKind.add, "+ " ++ showPath path ++ ": " ++ stringify b⟩] := by
  rw [collectDiffLines.eq_def, hp, ha]
  simp

theorem collectDiffLines_not_obj {a b : JVal} {path : String}
    (hp : primEq a b = false) (ha : (isArrB a || isArrB b) = false)
    (hobj : ¬(isObjB a = true ∧ isObjB b = true)) :
    collectDiffLines a b path =
      [⟨DKind.remove, "- " ++ showPath path ++ ": " ++ fmtJ a⟩,
       ⟨DKind.add, "+ " ++ showPath path ++ ": " ++ fmtJ b⟩] := by
  cases a <;> cases b <;> simp_all [collectDiffLines, isArrB, isObjB]

theorem collectFields_ne_nil {as bs : List (String × JVal)} {path k : String}
    {bv : JVal} (hb : lookupJ k bs = some bv)
    (hblock : lookupJ k as = none ∨
      ∃ av, lookupJ k as = some av ∧
        collectDiffLines av bv (pathJoin path k) ≠ []) :
    ∀ {ks : List String}, k ∈ ks → collectFields as bs path ks ≠ [] := by
  intro ks
  induction ks with
  | nil => intro h; cases h
  | cons k2 t ih =>
    intro hk
    by_cases hkk : k2 = k
    · subst hkk
      rcases hblock with hnone | ⟨av, hav, hne⟩
      · rw [collectFields_cons_add hb hnone]
        simp
      · rw [collectFields_cons_rec hb hav]
        intro hnil
        rw [List.append_eq_nil] at hnil
        exact hne hnil.1
    · have hk2 : k ∈ t := by
        rcases List.mem_cons.mp hk with h1 | h1
        · exact absurd h1.symm hkk
        · exact h1
      intro hnil
      simp only [collectFields] at hnil
      rw [List.append_eq_nil] at hnil
      exact ih hk2 hnil.2

theorem collect_ne_nil_not_objs {a b : JVal} {path : String}
    (hd : deepDiff a b ≠ none) (hobj : ¬(isObjB a = true ∧ isObjB b = true)) :
    collectDiffLines a b path ≠ [] := by
  have hp : primEq a b = false := by
    cases hpe : primEq a b
    · rfl
    · exfalso
      apply hd
      rw [deepDiff.eq_def, hpe]
      simp
  by_cases harr : (isArrB a || isArrB b) = true
  · rw [collectDiffLines_arrcase hp harr]
    by_cases hs : (stringify a == stringify b) = true
    · exfalso
      apply hd
      have hab := stringify_inj (by simpa using hs)
      rw [hab]
      exact deepDiff_self b
    · rw [if_neg hs]
      simp
  · rw [collectDiffLines_not_obj hp (by simpa using harr) hobj]
    simp

/-- C10: whenever the computed diff is non-absent, the rendered diff is
non-empty — a commit that will send a payload always shows at least one
line in the preview (proved at the root path, via the invariant at every
path). -/
theorem claim_C10 :
    ∀ (a b : JVal), deepDiff a b ≠ none → collectDiffLines a b "" ≠ [] := by
  have main : ∀ (b a : JVal) (path : String),
      deepDiff a b ≠ none → collectDiffLines a b path ≠ [] := by
    intro b
    induction b using jval_ind with
    | hobj bs ihm =>
      intro a path hd
      by_cases hobja : isObjB a = true
      · obtain ⟨as, rfl⟩ := isObjB_shape hobja
        rw [collectDiffLines_obj]
        cases hf : diffFields as bs (unionKeys as bs) with
        | nil => exact absurd (deepDiff_obj_nil hf) hd
        | cons f ft =>
          rcases f with ⟨k, d⟩
          have hmem : (k, d) ∈ diffFields as bs (unionKeys as bs) := by
            rw [hf]
            exact List.mem_cons_self _ _
          obtain ⟨hk, ev, hev, hcase⟩ := diffFields_mem hmem
          have hks : k ∈ sortedUnionKeys as bs := mem_sortStrs.mpr hk
          rcases hcase with ⟨hnone, hde⟩ | ⟨ov, hov, hdd⟩
          · exact collectFields_ne_nil hev (Or.inl hnone) hks
          · refine collectFields_ne_nil hev (Or.inr ⟨ov, hov, ?_⟩) hks
            exact ihm (k, ev) (lookupJ_mem hev) ov (pathJoin path k)
              (by rw [hdd]; simp)
      · exact collect_ne_nil_not_objs hd (fun hc => hobja hc.1)
    | hnull =>
      intro a path hd
      exact collect_ne_nil_not_objs hd (fun hc => by simp [isObjB] at hc)
    | hbool bb =>
      intro a path hd
      exact collect_ne_nil_not_objs hd (fun hc => by simp [isObjB] at hc)
    | hnum n =>
      intro a path hd
      exact collect_ne_nil_not_objs hd (fun hc => by simp [isObjB] at hc)
    | hstr s =>
      intro a path hd
      exact collect_ne_nil_not_objs hd (fun hc => by simp [isObjB] at hc)
    | harr xs _ =>
      intro a path hd
      exact collect_ne_nil_not_objs hd (fun hc => by simp [isObjB] at hc)
  intro a b hd
  exact main b a "" hd

/-- Witness for C10 at the concrete changed pair `{a:1}` to `{a:2}`. -/
theorem claim_C10_witness :
    collectDiffLines (JVal.obj [("a", JVal.num 1)])
      (JVal.obj [("a", JVal.num 2)]) "" ≠ [] := by
  apply claim_C10
  simp [deepDiff, primEq, diffFields, unionKeys, keysOf, dedupFirst, lookupJ]

/-! ### Mapping equivalence and merge lemmas -/

theorem equivFields_of : ∀ {fs gs : List (String × JVal)},
    (∀ kv ∈ fs, ∃ w, lookupJ kv.1 gs = some w ∧ jvalEquiv kv.2 w = true) →
    equivFields fs gs = true := by
  intro fs
  induction fs with
  | nil => intro _ _; simp [equivFields]
  | cons g t ih =>
    intro gs h
    rcases g with ⟨k, v⟩
    obtain ⟨w, hw, hc⟩ := h (k, v) (List.mem_cons_self _ _)
    simp only at hw hc
    simp only [equivFields, Bool.and_eq_true]
    constructor
    · split
      · rename_i w2 hw2
        rw [hw] at hw2
        injection hw2 with hww
        rw [← hww]
        exact hc
      · rename_i hw2
        rw [hw] at hw2
        cases hw2
    · exact ih (fun kv hkv => h kv (List.mem_cons_of_mem _ hkv))

theorem keysIncluded_of {gs fs : List (String × JVal)}
    (h : ∀ kv ∈ gs, (lookupJ kv.1 fs).isSome = true) :
    keysIncluded gs fs = true := by
  rw [keysIncluded, List.all_eq_true]
  exact h

theorem keysIncluded_lookup {fs gs : List (String × JVal)} {k : String}
    {v : JVal} (h : keysIncluded fs gs = true) (hl : lookupJ k fs = some v) :
    (lookupJ k gs).isSome = true := by
  rw [keysIncluded, List.all_eq_true] at h
  exact h (k, v) (lookupJ_mem hl)

theorem jvalEquiv_refl : ∀ {v : JVal}, wfJ v = true → jvalEquiv v v = true := by
  intro v
  induction v using jval_ind with
  | hnull => intro _; simp [jvalEquiv, primEq]
  | hbool b => intro _; simp [jvalEquiv, primEq]
  | hnum n => intro _; simp [jvalEquiv, primEq]
  | hstr s => intro _; simp [jvalEquiv, primEq]
  | harr xs ih =>
    intro hw
    simp only [wfJ] at hw
    simp only [jvalEquiv]
    induction xs with
    | nil => simp [equivArr]
    | cons x t iht =>
      simp only [wfArr, Bool.and_eq_true] at hw
      simp only [equivArr, Bool.and_eq_true]
      exact ⟨ih x (List.mem_cons_self _ _) hw.1,
        iht (fun y hy => ih y (List.mem_cons_of_mem _ hy)) hw.2⟩
  | hobj fs ih =>
    intro hw
    simp only [jvalEquiv, Bool.and_eq_true]
    constructor
    · apply equivFields_of
      intro kv hkv
      exact ⟨kv.2, lookupJ_self_of_nodup (wfJ_obj_nodup hw) (by
          rcases kv with ⟨k, v⟩
          exact hkv),
        ih kv hkv (wfJ_obj_mem hw hkv)⟩
    · apply keysIncluded_of
      intro kv hkv
      apply lookupJ_isSome_of_mem
      rcases kv with ⟨k, v⟩
      exact List.mem_map.mpr ⟨(k, v), hkv, rfl⟩

theorem keysCompat_obj {fs gs : List (String × JVal)}
    (h : keysCompat (JVal.obj fs) (JVal.obj gs) = true) :
    keysIncluded fs gs = true ∧ compatFields fs gs = true := by
  simpa [keysCompat, Bool.and_eq_true] using h

theorem compatFields_lookup : ∀ {fs gs : List (String × JVal)} {k : String}
    {v w : JVal}, compatFields fs gs = true → (k, v) ∈ fs →
    lookupJ k gs = some w → keysCompat v w = true := by
  intro fs
  induction fs with
  | nil => intro gs k v w _ hm; cases hm
  | cons g t ih =>
    intro gs k v w hc hm hw
    rcases g with ⟨k2, v2⟩
    simp only [compatFields, Bool.and_eq_true] at hc
    rcases List.mem_cons.mp hm with h1 | h1
    · injection h1 with e1 e2
      subst e1
      subst e2
      have h2 := hc.1
      split at h2
      · rename_i w2 hw2
        rw [hw] at hw2
        injection hw2 with hww
        rw [hww]
        exact h2
      · rename_i hw2
        rw [hw] at hw2
        cases hw2
    · exact ih hc.2 h1 hw

theorem mergeFields_cons (k : String) (v : JVal)
    (bs ps : List (String × JVal)) :
    mergeFields ((k, v) :: bs) ps =
      (k, applyPatch v (lookupJ k ps)) :: mergeFields bs ps := by
  simp only [mergeFields]
  cases hl : lookupJ k ps with
  | none => simp [applyPatch]
  | some p => simp [applyPatch]

theorem lookupJ_mergeFields {k : String} : ∀ {bs ps : List (String × JVal)},
    lookupJ k (mergeFields bs ps) =
      match lookupJ k bs with
      | some v => some (applyPatch v (lookupJ k ps))
      | none => none := by
  intro bs
  induction bs with
  | nil => intro ps; simp [mergeFields, lookupJ]
  | cons g t ih =>
    intro ps
    rcases g with ⟨k2, v2⟩
    rw [mergeFields_cons]
    by_cases hk : k2 = k
    · subst hk
      simp [lookupJ]
    · simp only [lookupJ, hk, if_false]
      exact ih

theorem mem_mergeFields : ∀ {bs ps : List (String × JVal)}
    {kv : String × JVal}, kv ∈ mergeFields bs ps →
    ∃ v, (kv.1, v) ∈ bs ∧ kv.2 = applyPatch v (lookupJ kv.1 ps) := by
  intro bs
  induction bs with
  | nil => intro ps kv h; simp [mergeFields] at h
  | cons g t ih =>
    intro ps kv h
    rcases g with ⟨k2, v2⟩
    rw [mergeFields_cons] at h
    rcases List.mem_cons.mp h with h1 | h1
    · subst h1
      exact ⟨v2, List.mem_cons_self _ _, rfl⟩
    · obtain ⟨v, hv1, hv2⟩ := ih h1
      exact ⟨v, List.mem_cons_of_mem _ hv1, hv2⟩

theorem lookupJ_append {k : String} : ∀ {xs ys : List (String × JVal)},
    lookupJ k (xs ++ ys) =
      match lookupJ k xs with
      | some v => some v
      | none => lookupJ k ys := by
  intro xs
  induction xs with
  | nil => intro ys; simp [lookupJ]
  | cons g t ih =>
    intro ys
    rcases g with ⟨k2, v2⟩
    by_cases hk : k2 = k
    · subst hk
      simp [lookupJ]
    · simp only [List.cons_append, lookupJ, hk, if_false]
      exact ih

theorem deepMergePatch_p_not_obj (a p : JVal) (h : isObjB p = false) :
    deepMergePatch a p = p := by
  cases a <;> cases p <;> first
    | rfl
    | simp [isObjB] at h

theorem deepMergePatch_a_not_obj (a p : JVal) (h : isObjB a = false) :
    deepMergePatch a p = p := by
  cases a <;> cases p <;> first
    | rfl
    | simp [isObjB] at h

/-- A changed common key always contributes its recursive diff. -/
theorem diffFields_mem_ch {os es : List (String × JVal)} {k : String}
    {ev ov d : JVal} (he : lookupJ k es = some ev)
    (ho : lookupJ k os = some ov) (hd : deepDiff ov ev = some d) :
    ∀ {ks : List String}, k ∈ ks → (k, d) ∈ diffFields os es ks := by
  intro ks
  induction ks with
  | nil => intro h; cases h
  | cons k2 t ih =>
    intro hk
    by_cases hkk : k2 = k
    · subst hkk
      rw [diffFields_cons_ch he ho hd]
      exact List.mem_cons_self _ _
    · have hk2 : k ∈ t := by
        rcases List.mem_cons.mp hk with h1 | h1
        · exact absurd h1.symm hkk
        · exact h1
      cases he2 : lookupJ k2 es with
      | none =>
        rw [diffFields_cons_skip he2]
        exact ih hk2
      | some ev2 =>
        cases ho2 : lookupJ k2 os with
        | none =>
          rw [diffFields_cons_new he2 ho2]
          exact List.mem_cons_of_mem _ (ih hk2)
        | some ov2 =>
          cases hd2 : deepDiff ov2 ev2 with
          | none =>
            rw [diffFields_cons_eq he2 ho2 hd2]
            exact ih hk2
          | some d2 =>
            rw [diffFields_cons_ch he2 ho2 hd2]
            exact List.mem_cons_of_mem _ (ih hk2)

/-- Deep-merging the computed diff into the original reconstructs the edited
value up to object key insertion order, whenever no key was deleted at any
simultaneous object node. -/
theorem mergeRecover : ∀ (b a : JVal), wfJ a = true → wfJ b = true →
    keysCompat a b = true →
    jvalEquiv (applyPatch a (deepDiff a b)) b = true := by
  intro b
  induction b using jval_ind with
  | hobj bs ihm =>
    intro a hwa hwb hcompat
    by_cases hobja : isObjB a = true
    · obtain ⟨as, rfl⟩ := isObjB_shape hobja
      obtain ⟨hincl, hcf⟩ := keysCompat_obj hcompat
      cases hf : diffFields as bs (unionKeys as bs) with
      | nil =>
        rw [deepDiff_obj_nil hf]
        simp only [applyPatch]
        simp only [jvalEquiv, Bool.and_eq_true]
        constructor
        · apply equivFields_of
          intro kv hkv
          rcases kv with ⟨k, v⟩
          simp only
          have hlas : lookupJ k as = some v :=
            lookupJ_self_of_nodup (wfJ_obj_nodup hwa) hkv
          have hsome := keysIncluded_lookup hincl hlas
          cases hev : lookupJ k bs with
          | none =>
            rw [hev] at hsome
            simp at hsome
          | some ev =>
            have hku : k ∈ unionKeys as bs :=
              mem_unionKeys.mpr (Or.inl (lookupJ_some_mem_keys hlas))
            obtain ⟨ov, hov, hdn⟩ := diffFields_nil_lookup hf hku hev
            rw [hlas] at hov
            injection hov with hovv
            have h9 := ihm (k, ev) (lookupJ_mem hev) v
              (wfJ_obj_mem hwa hkv) (wfJ_lookup hwb hev)
              (compatFields_lookup hcf hkv hev)
            rw [← hovv] at hdn
            rw [hdn] at h9
            simp only [applyPatch] at h9
            exact ⟨ev, rfl, h9⟩
        · apply keysIncluded_of
          intro kv hkv
          rcases kv with ⟨l, w⟩
          simp only
          cases hla : lookupJ l as with
          | some v => simp
          | none =>
            exfalso
            have hlbm : l ∈ keysOf bs := List.mem_map.mpr ⟨(l, w), hkv, rfl⟩
            have hlb := lookupJ_isSome_of_mem hlbm
            cases hev : lookupJ l bs with
            | none =>
              rw [hev] at hlb
              simp at hlb
            | some ev1 =>
              have hku : l ∈ unionKeys as bs := mem_unionKeys.mpr (Or.inr hlbm)
              obtain ⟨ov, hov, -⟩ := diffFields_nil_lookup hf hku hev
              rw [hla] at hov
              cases hov
      | cons f ft =>
        rw [deepDiff_obj_cons hf]
        simp only [applyPatch]
        rw [show deepMergePatch (JVal.obj as) (JVal.obj (f :: ft)) =
              JVal.obj (mergeFields as (f :: ft) ++
                (f :: ft).filter (fun kv => (lookupJ kv.1 as).isNone)) from by
          simp [deepMergePatch]]
        simp only [jvalEquiv, Bool.and_eq_true]
        constructor
        · apply equivFields_of
          intro kv hkv
          rcases List.mem_append.mp hkv with hm1 | hm2
          · obtain ⟨v, hvmem, hval⟩ := mem_mergeFields hm1
            rcases kv with ⟨k, mv⟩
            simp only at hval ⊢
            have hlas : lookupJ k as = some v :=
              lookupJ_self_of_nodup (wfJ_obj_nodup hwa) hvmem
            have hsome := keysIncluded_lookup hincl hlas
            cases hev : lookupJ k bs with
            | none =>
              rw [hev] at hsome
              simp at hsome
            | some ev =>
              refine ⟨ev, rfl, ?_⟩
              have hwv := wfJ_obj_mem hwa hvmem
              have hwev := wfJ_lookup hwb hev
              have hcve := compatFields_lookup hcf hvmem hev
              have h9 := ihm (k, ev) (lookupJ_mem hev) v hwv hwev hcve
              cases hP : lookupJ k (f :: ft) with
              | some d =>
                have hdm : (k, d) ∈ diffFields as bs (unionKeys as bs) := by
                  rw [hf]
                  exact lookupJ_mem hP
                obtain ⟨-, ev2, hev2, hcase⟩ := diffFields_mem hdm
                rw [hev] at hev2
                injection hev2 with hevv
                rcases hcase with ⟨hnone, -⟩ | ⟨ov, hov, hdd⟩
                · rw [hlas] at hnone
                  cases hnone
                · rw [hlas] at hov
                  injection hov with hovv
                  rw [← hovv, ← hevv] at hdd
                  rw [hdd] at h9
                  rw [hval, hP]
                  exact h9
              | none =>
                cases hdve : deepDiff v ev with
                | none =>
                  rw [hval, hP]
                  simp only [applyPatch]
                  rw [hdve] at h9
                  simp only [applyPatch] at h9
                  exact h9
                | some d =>
                  exfalso
                  have hku : k ∈ unionKeys as bs :=
                    mem_unionKeys.mpr (Or.inl (lookupJ_some_mem_keys hlas))
                  have hmm := diffFields_mem_ch hev hlas hdve hku
                  rw [hf] at hmm
                  have hkk : k ∈ keysOf (f :: ft) :=
                    List.mem_map.mpr ⟨(k, d), hmm, rfl⟩
                  exact lookupJ_eq_none_iff.mp hP hkk
          · rcases kv with ⟨k, d⟩
            rw [List.mem_filter] at hm2
            obtain ⟨hmP, hnone⟩ := hm2
            have hlan : lookupJ k as = none := by
              cases hla : lookupJ k as
              · rfl
              · rw [hla] at hnone
                simp at hnone
            have hdm : (k, d) ∈ diffFields as bs (unionKeys as bs) := by
              rw [hf]
              exact hmP
            obtain ⟨-, ev, hev, hcase⟩ := diffFields_mem hdm
            rcases hcase with ⟨-, hde⟩ | ⟨ov, hov, -⟩
            · simp only
              rw [hde]
              exact ⟨ev, hev, jvalEquiv_refl (wfJ_lookup hwb hev)⟩
            · rw [hlan] at hov
              cases hov
        · apply keysIncluded_of
          intro kv hkv
          rcases kv with ⟨l, w⟩
          simp only
          rw [lookupJ_append, lookupJ_mergeFields]
          cases hla : lookupJ l as with
          | some v => simp
          | none =>
            simp only
            have hlbm : l ∈ keysOf bs := List.mem_map.mpr ⟨(l, w), hkv, rfl⟩
            have hlb := lookupJ_isSome_of_mem hlbm
            cases hev : lookupJ l bs with
            | none =>
              rw [hev] at hlb
              simp at hlb
            | some ev1 =>
              have hku : l ∈ unionKeys as bs := mem_unionKeys.mpr (Or.inr hlbm)
              have hmm := diffFields_mem_new hev hla hku
              rw [hf] at hmm
              have hmf : (l, ev1) ∈
                  (f :: ft).filter (fun kv => (lookupJ kv.1 as).isNone) := by
                rw [List.mem_filter]
                refine ⟨hmm, ?_⟩
                rw [hla]
                rfl
              apply lookupJ_isSome_of_mem
              exact List.mem_map.mpr ⟨(l, ev1), hmf, rfl⟩
    · have hp : primEq a (JVal.obj bs) = false := by cases a <;> rfl
      have hanotobj : isObjB a = false := by
        cases ho : isObjB a
        · rfl
        · exact absurd ho hobja
      have hda := deepDiff_catchall hp (fun hc => hobja hc.1)
        (fun hc => by simp [isArrB] at hc)
      rw [hda]
      simp only [applyPatch]
      rw [deepMergePatch_a_not_obj a (JVal.obj bs) hanotobj]
      exact jvalEquiv_refl hwb
  | hnull =>
    intro a hwa hwb hcompat
    by_cases hpe : primEq a JVal.null = true
    · rw [primEq_eq hpe, deepDiff_self]
      simp only [applyPatch]
      exact jvalEquiv_refl hwb
    · have hp : primEq a JVal.null = false := by
        cases hx : primEq a JVal.null
        · rfl
        · exact absurd hx hpe
      rw [deepDiff_catchall hp (fun hc => by simp [isObjB] at hc)
        (fun hc => by simp [isArrB] at hc)]
      simp only [applyPatch]
      rw [deepMergePatch_p_not_obj a JVal.null rfl]
      exact jvalEquiv_refl hwb
  | hbool bb =>
    intro a hwa hwb hcompat
    by_cases hpe : primEq a (JVal.bool bb) = true
    · rw [primEq_eq hpe, deepDiff_self]
      simp only [applyPatch]
      exact jvalEquiv_refl hwb
    · have hp : primEq a (JVal.bool bb) = false := by
        cases hx : primEq a (JVal.bool bb)
        · rfl
        · exact absurd hx hpe
      rw [deepDiff_catchall hp (fun hc => by simp [isObjB] at hc)
        (fun hc => by simp [isArrB] at hc)]
      simp only [applyPatch]
      rw [deepMergePatch_p_not_obj a (JVal.bool bb) rfl]
      exact jvalEquiv_refl hwb
  | hnum n =>
    intro a hwa hwb hcompat
    by_cases hpe : primEq a (JVal.num n) = true
    · rw [primEq_eq hpe, deepDiff_self]
      simp only [applyPatch]
      exact jvalEquiv_refl hwb
    · have hp : primEq a (JVal.num n) = false := by
        cases hx : primEq a (JVal.num n)
        · rfl
        · exact absurd hx hpe
      rw [deepDiff_catchall hp (fun hc => by simp [isObjB] at hc)
        (fun hc => by simp [isArrB] at hc)]
      simp only [applyPatch]
      rw [deepMergePatch_p_not_obj a (JVal.num n) rfl]
      exact jvalEquiv_refl hwb
  | hstr s =>
    intro a hwa hwb hcompat
    by_cases hpe : primEq a (JVal.str s) = true
    · rw [primEq_eq hpe, deepDiff_self]
      simp only [applyPatch]
      exact jvalEquiv_refl hwb
    · have hp : primEq a (JVal.str s) = false := by
        cases hx : primEq a (JVal.str s)
        · rfl
        · exact absurd hx hpe
      rw [deepDiff_catchall hp (fun hc => by simp [isObjB] at hc)
        (fun hc => by simp [isArrB] at hc)]
      simp only [applyPatch]
      rw [deepMergePatch_p_not_obj a (JVal.str s) rfl]
      exact jvalEquiv_refl hwb
  | harr ys _ =>
    intro a hwa hwb hcompat
    by_cases haa : isArrB a = true
    · obtain ⟨xs, rfl⟩ := isArrB_shape haa
      rw [deepDiff_arr_arr]
      by_cases hs : (stringify (JVal.arr xs) == stringify (JVal.arr ys)) = true
      · rw [if_pos hs]
        simp only [applyPatch]
        have hab : JVal.arr xs = JVal.arr ys := stringify_inj (by simpa using hs)
        rw [hab]
        exact jvalEquiv_refl hwb
      · rw [if_neg hs]
        simp only [applyPatch]
        rw [deepMergePatch_p_not_obj (JVal.arr xs) (JVal.arr ys) rfl]
        exact jvalEquiv_refl hwb
    · have hp : primEq a (JVal.arr ys) = false := by cases a <;> rfl
      have hda := deepDiff_catchall hp (fun hc => by simp [isObjB] at hc)
        (fun hc => haa hc.1)
      rw [hda]
      simp only [applyPatch]
      rw [deepMergePatch_p_not_obj a (JVal.arr ys) rfl]
      exact jvalEquiv_refl hwb

/-- C9 counterexample: with `a = {x:1}` and `b = {y:2,x:1}` (well-formed,
no key deleted: the key set of `a` is contained in that of `b` at every
simultaneous object node), deep-merging `deepDiff(a,b)` into `a` yields
`{x:1,y:2}` — the same mapping as `b` but with a different key insertion
order, hence not `b` exactly. -/
theorem claim_C9_counterexample :
    wfJ (JVal.obj [("x", JVal.num 1)]) = true ∧
    wfJ (JVal.obj [("y", JVal.num 2), ("x", JVal.num 1)]) = true ∧
    keysCompat (JVal.obj [("x", JVal.num 1)])
      (JVal.obj [("y", JVal.num 2), ("x", JVal.num 1)]) = true ∧
    applyPatch (JVal.obj [("x", JVal.num 1)])
        (deepDiff (JVal.obj [("x", JVal.num 1)])
          (JVal.obj [("y", JVal.num 2), ("x", JVal.num 1)])) ≠
      JVal.obj [("y", JVal.num 2), ("x", JVal.num 1)] := by
  refine ⟨?_, ?_, ?_, ?_⟩
  · simp [wfJ, wfFields, keysOf]
  · simp [wfJ, wfFields, keysOf]
  · simp [keysCompat, keysIncluded, compatFields, keysCompat, lookupJ]
  · simp [deepDiff, primEq, diffFields, unionKeys, keysOf, dedupFirst,
      lookupJ, applyPatch, deepMergePatch, mergeFields]

/-- C9 amended: for all well-formed JSON values `a`, `b` such that at every
simultaneous node where both sides are non-array objects the key set of `a`
is contained in that of `b`, recursively deep-merging `deepDiff(a,b)` into
`a` reconstructs `b` up to object key insertion order (`jvalEquiv`: arrays
element-wise, objects as finite mappings) — the sparse patch suffices to
rebuild the edited mapping from the original when no keys were deleted. -/
theorem claim_C9_amended : ∀ (a b : JVal), wfJ a = true → wfJ b = true →
    keysCompat a b = true →
    jvalEquiv (applyPatch a (deepDiff a b)) b = true :=
  fun a b hwa hwb hc => mergeRecover b a hwa hwb hc

/-- Witness for the amended C9 on a nested concrete pair. -/
theorem claim_C9_witness :
    jvalEquiv (applyPatch (JVal.obj [("s", JVal.obj [("x", JVal.num 1)])])
        (deepDiff (JVal.obj [("s", JVal.obj [("x", JVal.num 1)])])
          (JVal.obj [("s", JVal.obj [("x", JVal.num 2), ("y", JVal.num 3)])])))
      (JVal.obj [("s", JVal.obj [("x", JVal.num 2), ("y", JVal.num 3)])]) =
      true := by
  apply claim_C9_amended
  · simp [wfJ, wfFields, keysOf]
  · simp [wfJ, wfFields, keysOf]
  · simp [keysCompat, keysIncluded, compatFields, lookupJ]

end QueueManager
